import Mathlib

/-
Verification of the drift-comparison engine of aws-terror
(pkg/drift: DetectDrift, getNestedValue, compareValues, normalizeValue,
compareMaps, compareSlices), as a shallow embedding in Lean 4.

The Go code operates on dynamically typed values (`any`) produced by JSON
decoding, the AWS SDK and the HCL parser.  The value universe that actually
reaches the engine is: nil, bool, the integer encodings handled by
normalizeValue (int, int32, int64, uint, uint32, uint64), float64, string,
[]any, []string, map[string]any and map[string]string.  Machine floats are
modelled exactly as rationals: no claim exercises rounding, NaN or values
beyond 2^53, and float64 equality on such values is exact value equality.
Go maps are modelled as association lists whose key uniqueness is recorded
by the wellformedness predicate keysUnique below (a Go map can never hold a
duplicate key, so every value reaching the engine satisfies it; iteration
order is irrelevant to every function modelled here because the loops build
pure conjunctions or key lookups).
-/

inductive Value : Type where
  | null : Value
  | vBool (b : Bool) : Value
  | vInt (n : Int) : Value
  | vInt32 (n : Int) : Value
  | vInt64 (n : Int) : Value
  | vUint (n : Nat) : Value
  | vUint32 (n : Nat) : Value
  | vUint64 (n : Nat) : Value
  | vFloat (q : Rat) : Value
  | vStr (s : String) : Value
  | vList (xs : List Value) : Value
  | vStrList (xs : List String) : Value
  | vMap (m : List (String × Value)) : Value
  | vStrMap (m : List (String × String)) : Value

mutual
/-- Depth of a value: used as the fuel bound for the comparison recursion.
A strMap or strList gets depth 2 because normalizeValue turns it into a
one-level nesting of strings. -/
def vdepth : Value → Nat
  | .vList xs => 1 + vdepthList xs
  | .vMap m => 1 + vdepthPairs m
  | .vStrMap _ => 2
  | .vStrList _ => 2
  | _ => 1

def vdepthList : List Value → Nat
  | [] => 0
  | x :: xs => max (vdepth x) (vdepthList xs)

def vdepthPairs : List (String × Value) → Nat
  | [] => 0
  | p :: ps => max (vdepth p.2) (vdepthPairs ps)
end

mutual
/-- Structural equality on values.  Inside compareValues this models the
`reflect.DeepEqual(v1, v2)` fallback: that branch only ever receives a pair
of normalized values that are not both maps and not both slices, i.e. two
scalars (Null, Bool, Number, String) or two values of different dynamic
type, and on those inputs reflect.DeepEqual is exactly structural equality
(same dynamic type and same value). -/
def deepEqual : Value → Value → Bool
  | .null, .null => true
  | .vBool a, .vBool b => a == b
  | .vInt a, .vInt b => a == b
  | .vInt32 a, .vInt32 b => a == b
  | .vInt64 a, .vInt64 b => a == b
  | .vUint a, .vUint b => a == b
  | .vUint32 a, .vUint32 b => a == b
  | .vUint64 a, .vUint64 b => a == b
  | .vFloat a, .vFloat b => a == b
  | .vStr a, .vStr b => a == b
  | .vStrList a, .vStrList b => a == b
  | .vStrMap a, .vStrMap b => a == b
  | .vList xs, .vList ys => deepEqualList xs ys
  | .vMap m1, .vMap m2 => deepEqualPairs m1 m2
  | _, _ => false

def deepEqualList : List Value → List Value → Bool
  | [], [] => true
  | x :: xs, y :: ys => deepEqual x y && deepEqualList xs ys
  | _, _ => false

def deepEqualPairs : List (String × Value) → List (String × Value) → Bool
  | [], [] => true
  | p :: ps, q :: qs => p.1 == q.1 && deepEqual p.2 q.2 && deepEqualPairs ps qs
  | _, _ => false
end

/-- Go `v == nil` on the engine's interface values. -/
def isNull : Value → Bool
  | .null => true
  | _ => false

/-- Lookup in a Go map modelled as an association list (`current[part]`). -/
def mapLookup : List (String × Value) → String → Option Value
  | [], _ => none
  | p :: rest, k => if p.1 = k then some p.2 else mapLookup rest k

/-- The `normalizeValue` function of pkg/drift: widens the six handled
integer encodings to float64, converts map[string]string to map[string]any
and []string to []any, and returns everything else unchanged. -/
def normalizeValue : Value → Value
  | .vInt n => .vFloat n
  | .vInt32 n => .vFloat n
  | .vInt64 n => .vFloat n
  | .vUint n => .vFloat n
  | .vUint32 n => .vFloat n
  | .vUint64 n => .vFloat n
  | .vStrMap m => .vMap (m.map fun p => (p.1, Value.vStr p.2))
  | .vStrList xs => .vList (xs.map Value.vStr)
  | v => v

/-- The type assertion `v.(map[string]any)` on a normalized value. -/
def asMap : Value → Option (List (String × Value))
  | .vMap m => some m
  | _ => none

/-- The type assertion `v.([]any)` on a normalized value. -/
def asSlice : Value → Option (List Value)
  | .vList s => some s
  | _ => none

/-- Body of `compareMaps`, parameterized by the recursive comparison:
length check, then for every key of m1 a lookup in m2 and a recursive
value comparison (the Go loop returns false on the first failure, which
is the same boolean as this conjunction). -/
def compareMapsWith (cmp : Value → Value → Bool) (m1 m2 : List (String × Value)) : Bool :=
  m1.length == m2.length &&
  m1.all fun p =>
    match mapLookup m2 p.1 with
    | none => false
    | some w => cmp p.2 w

/-- Inner loop of `compareSlices` for one element v1 of s1: scan s2Copy
left to right for the first still-unconsumed match, and mark the matched
cell by overwriting it with nil (`s2Copy[i] = nil`).  Returns the updated
copy, or none when no cell matches. -/
def removeFirstMatchWith (cmp : Value → Value → Bool) (v : Value) :
    List Value → Option (List Value)
  | [] => none
  | w :: ws =>
    if cmp v w then some (Value.null :: ws)
    else
      match removeFirstMatchWith cmp v ws with
      | none => none
      | some ws₁ => some (w :: ws₁)

/-- Outer loop of `compareSlices`: each element of s1 must consume one cell
of the evolving copy of s2. -/
def greedyWith (cmp : Value → Value → Bool) : List Value → List Value → Bool
  | [], _ => true
  | v :: vs, ws =>
    match removeFirstMatchWith cmp v ws with
    | none => false
    | some ws₁ => greedyWith cmp vs ws₁

/-- Body of `compareSlices`, parameterized by the recursive comparison:
length check, then the greedy multiset matching over a local copy of s2. -/
def compareSlicesWith (cmp : Value → Value → Bool) (s1 s2 : List Value) : Bool :=
  s1.length == s2.length && greedyWith cmp s1 s2

/-- Dispatch of `compareValues` after the nil checks and normalization,
with the recursive call abstracted: map case (both type assertions to
map[string]any succeed), slice case (both assertions to []any succeed),
reflect.DeepEqual fallback. -/
def compareCore (cmp : Value → Value → Bool) (n1 n2 : Value) : Bool :=
  match asMap n1, asMap n2 with
  | some m1, some m2 => compareMapsWith cmp m1 m2
  | _, _ =>
    match asSlice n1, asSlice n2 with
    | some s1, some s2 => compareSlicesWith cmp s1 s2
    | _, _ => deepEqual n1 n2

/-- One unfolding of `compareValues` of pkg/drift, with the recursive call
abstracted: nil checks, normalization of both sides, then compareCore. -/
def compareValuesF (cmp : Value → Value → Bool) (v1 v2 : Value) : Bool :=
  if isNull v1 && isNull v2 then true
  else if isNull v1 || isNull v2 then false
  else compareCore cmp (normalizeValue v1) (normalizeValue v2)

/-- Fuel-indexed comparison; the fuel only serves to found the recursion
and is irrelevant once it is at least the depth of the first argument
(theorem cmpV_fuel_irrelevant below). -/
def cmpV (fuel : Nat) : Value → Value → Bool :=
  Nat.rec (motive := fun _ => Value → Value → Bool)
    (fun _ _ => false) (fun _ prev => compareValuesF prev) fuel

/-- The `compareValues` function of pkg/drift. -/
def compareValues (v1 v2 : Value) : Bool :=
  cmpV (vdepth v1) v1 v2

/-- The `compareMaps` function of pkg/drift. -/
def compareMaps (m1 m2 : List (String × Value)) : Bool :=
  compareMapsWith compareValues m1 m2

/-- The `compareSlices` function of pkg/drift. -/
def compareSlices (s1 s2 : List Value) : Bool :=
  compareSlicesWith compareValues s1 s2

/-- Go `strings.Split(s, ".")`, unfolded for a one-character separator:
split at every dot; the empty string splits to [""]. -/
def splitDotAux : List Char → List Char → List String
  | [], acc => [String.mk acc.reverse]
  | c :: cs, acc =>
    if c = '.' then String.mk acc.reverse :: splitDotAux cs []
    else splitDotAux cs (c :: acc)

def splitDot (s : String) : List String := splitDotAux s.toList []

/-- The conversion applied by getNestedValue when an intermediate value is
not a map[string]any but is a map[string]string. -/
def asNestedMap : Value → Option (List (String × Value))
  | .vMap m => some m
  | .vStrMap m => some (m.map fun p => (p.1, Value.vStr p.2))
  | _ => none

/-- The loop of `getNestedValue`: walk all segments but the last through
map layers, then look up the last segment.  The [] case is unreachable
because splitDot never returns an empty list. -/
def walkParts : List (String × Value) → List String → Option Value
  | _, [] => none
  | m, [last] => mapLookup m last
  | m, seg :: rest =>
    match mapLookup m seg with
    | none => none
    | some w =>
      match asNestedMap w with
      | none => none
      | some next => walkParts next rest

/-- The `getNestedValue` function of pkg/drift.  The Go pair (any, bool)
is rendered as Option Value: none is (nil, false), some v is (v, true);
a nil stored inside a map is represented as some Value.null, which Go
reports as (nil, true). -/
def getNestedValue (data : List (String × Value)) (path : String) : Option Value :=
  if path = "" then none
  else walkParts data (splitDot path)

/-- The DriftDetail record of pkg/drift.  An `any` field left unset by the
Go composite literal holds nil, rendered here as Value.null. -/
structure DriftDetail where
  Attribute : String
  InAWS : Bool
  InTerraform : Bool
  AWSValue : Value
  TerraformValue : Value

/-- Go map assignment `drifts[attr] = d` on an association-list rendering:
replace the binding if the key exists, else append. -/
def mapAssign : List (String × DriftDetail) → String → DriftDetail → List (String × DriftDetail)
  | [], k, d => [(k, d)]
  | p :: rest, k, d => if p.1 = k then (k, d) :: rest else p :: mapAssign rest k d

/-- Lookup in the drift report map. -/
def driftLookup : List (String × DriftDetail) → String → Option DriftDetail
  | [], _ => none
  | p :: rest, k => if p.1 = k then some p.2 else driftLookup rest k

/-- One iteration of the DetectDrift loop for one checklist attribute. -/
def detectStep (awsConfig tfConfig : List (String × Value))
    (drifts : List (String × DriftDetail)) (attr : String) :
    List (String × DriftDetail) :=
  match getNestedValue awsConfig attr, getNestedValue tfConfig attr with
  | none, none => drifts
  | none, some tfValue =>
    mapAssign drifts attr ⟨attr, false, true, Value.null, tfValue⟩
  | some awsValue, none =>
    mapAssign drifts attr ⟨attr, true, false, awsValue, Value.null⟩
  | some awsValue, some tfValue =>
    if compareValues awsValue tfValue then drifts
    else mapAssign drifts attr ⟨attr, true, true, awsValue, tfValue⟩

/-- The `DetectDrift` function of pkg/drift.  The second component models
the returned error value, which the source sets to nil on its single
return path. -/
def DetectDrift (awsConfig tfConfig : List (String × Value))
    (attributesToCheck : List String) :
    List (String × DriftDetail) × Option String :=
  (attributesToCheck.foldl (detectStep awsConfig tfConfig) [], none)

/-- The loop of compareSlices with the mutable slice state made explicit:
the state carries the array the caller handed in for s2 and the local
working copy.  Each iteration writes its nil tombstone into the working
copy only, exactly as `s2Copy[i] = nil` does in the source. -/
def compareSlicesLoop (s1 : List Value) (st : List Value × List Value) :
    Bool × (List Value × List Value) :=
  match s1, st with
  | [], st => (true, st)
  | v :: vs, (callerArr, s2Copy) =>
    match removeFirstMatchWith compareValues v s2Copy with
    | none => (false, (callerArr, s2Copy))
    | some s2Copy₁ => compareSlicesLoop vs (callerArr, s2Copy₁)

/-- State-instrumented compareSlices: after the length check the source
allocates `s2Copy := make(...)` and `copy(s2Copy, s2)`, so the loop starts
with the working copy equal to the caller array. -/
def compareSlicesSt (s1 s2 : List Value) : Bool × (List Value × List Value) :=
  if s1.length == s2.length then compareSlicesLoop s1 (s2, s2)
  else (false, (s2, s2))

/-- Boolean no-duplicates check on a list of strings (used to state the
Go-map key-uniqueness invariant). -/
def strNodup : List String → Bool
  | [] => true
  | k :: rest => rest.all (fun s => s != k) && strNodup rest

mutual
/-- Wellformedness of a value as an image of a Go value: every map
(map[string]any or map[string]string) occurring anywhere inside has
pairwise distinct keys.  Every value a Go program can build satisfies
this; it is an artifact of modelling Go maps as association lists. -/
def keysUnique : Value → Bool
  | .vList xs => kuList xs
  | .vMap m => strNodup (m.map Prod.fst) && kuPairs m
  | .vStrMap m => strNodup (m.map Prod.fst)
  | _ => true

def kuList : List Value → Bool
  | [] => true
  | x :: xs => keysUnique x && kuList xs

def kuPairs : List (String × Value) → Bool
  | [] => true
  | p :: ps => keysUnique p.2 && kuPairs ps
end

mutual
/-- No list occurring anywhere inside the value has nil as a direct
element.  compareSlices overwrites consumed cells of its working copy
with nil, so a genuine nil list element can spuriously match a consumed
cell; outside this corner the greedy matching is exact (theorems below). -/
def listsNoNull : Value → Bool
  | .vList xs => lnnList xs
  | .vMap m => lnnPairs m
  | _ => true

def lnnList : List Value → Bool
  | [] => true
  | x :: xs => !isNull x && listsNoNull x && lnnList xs

def lnnPairs : List (String × Value) → Bool
  | [] => true
  | p :: ps => listsNoNull p.2 && lnnPairs ps
end

/-- The integer-like and floating numeric encodings of the value universe. -/
def isNumeric : Value → Bool
  | .vInt _ => true
  | .vInt32 _ => true
  | .vInt64 _ => true
  | .vUint _ => true
  | .vUint32 _ => true
  | .vUint64 _ => true
  | .vFloat _ => true
  | _ => false

/-- Modelled from the spec (section 4.4): the drift record DetectDrift is
expected to produce for one checklist attribute, written directly from the
four presence cases of the claim. -/
def expectedDrift (awsConfig tfConfig : List (String × Value)) (attr : String) :
    Option DriftDetail :=
  match getNestedValue awsConfig attr, getNestedValue tfConfig attr with
  | none, none => none
  | none, some tfValue => some ⟨attr, false, true, Value.null, tfValue⟩
  | some awsValue, none => some ⟨attr, true, false, awsValue, Value.null⟩
  | some awsValue, some tfValue =>
    if compareValues awsValue tfValue then none
    else some ⟨attr, true, true, awsValue, tfValue⟩

/-- Modelled from the spec (section 4.2): successful resolution of a
nonempty segment list, written from the claim text — the value stored
under the final segment after descending through map layers for every
segment before the last. -/
inductive Resolves : List (String × Value) → List String → Value → Prop where
  | last (m : List (String × Value)) (seg : String) (v : Value) :
      mapLookup m seg = some v → Resolves m [seg] v
  | step (m : List (String × Value)) (seg : String) (w : Value)
      (next : List (String × Value)) (rest : List String) (v : Value) :
      rest ≠ [] → mapLookup m seg = some w → asNestedMap w = some next →
      Resolves next rest v → Resolves m (seg :: rest) v

/-- Modelled from the spec (section 4.2): failed resolution of a nonempty
segment list — some segment before the last is missing from the current
map, or its value is not a map while segments remain, or every
intermediate segment resolves and the final segment is absent. -/
inductive ResolutionFails : List (String × Value) → List String → Prop where
  | lastMissing (m : List (String × Value)) (seg : String) :
      mapLookup m seg = none → ResolutionFails m [seg]
  | segMissing (m : List (String × Value)) (seg : String) (rest : List String) :
      rest ≠ [] → mapLookup m seg = none → ResolutionFails m (seg :: rest)
  | segNotMap (m : List (String × Value)) (seg : String) (w : Value)
      (rest : List String) :
      rest ≠ [] → mapLookup m seg = some w → asNestedMap w = none →
      ResolutionFails m (seg :: rest)
  | stepInto (m : List (String × Value)) (seg : String) (w : Value)
      (next : List (String × Value)) (rest : List String) :
      rest ≠ [] → mapLookup m seg = some w → asNestedMap w = some next →
      ResolutionFails next rest → ResolutionFails m (seg :: rest)

/-
Infrastructure lemmas.
-/

theorem vdepth_pos (v : Value) : 1 ≤ vdepth v := by
  cases v <;> simp [vdepth]

theorem vdepthList_mem {x : Value} {xs : List Value} (h : x ∈ xs) :
    vdepth x ≤ vdepthList xs := by
  induction xs with
  | nil => cases h
  | cons y ys ih =>
    rcases List.mem_cons.mp h with h | h
    · subst h; simp [vdepthList]
    · exact le_trans (ih h) (by simp [vdepthList])

theorem vdepthPairs_mem {p : String × Value} {m : List (String × Value)} (h : p ∈ m) :
    vdepth p.2 ≤ vdepthPairs m := by
  induction m with
  | nil => cases h
  | cons q qs ih =>
    rcases List.mem_cons.mp h with h | h
    · subst h; simp [vdepthPairs]
    · exact le_trans (ih h) (by simp [vdepthPairs])

theorem deepEqualList_iff : ∀ {xs ys : List Value},
    (∀ x ∈ xs, ∀ y, deepEqual x y = true ↔ x = y) →
    (deepEqualList xs ys = true ↔ xs = ys) := by
  intro xs
  induction xs with
  | nil => intro ys _; cases ys <;> simp [deepEqualList]
  | cons x xs ihl =>
    intro ys ih
    cases ys with
    | nil => simp [deepEqualList]
    | cons y ys =>
      have hx := ih x (by simp) y
      have hrest := @ihl ys (fun a ha y => ih a (by simp [ha]) y)
      simp [deepEqualList, hx, hrest]

theorem deepEqualPairs_iff : ∀ {m1 m2 : List (String × Value)},
    (∀ p ∈ m1, ∀ y, deepEqual p.2 y = true ↔ p.2 = y) →
    (deepEqualPairs m1 m2 = true ↔ m1 = m2) := by
  intro m1
  induction m1 with
  | nil => intro m2 _; cases m2 <;> simp [deepEqualPairs]
  | cons p ps ihl =>
    intro m2 ih
    cases m2 with
    | nil => simp [deepEqualPairs]
    | cons q qs =>
      have hp := ih p (by simp) q.2
      have hrest := @ihl qs (fun a ha y => ih a (by simp [ha]) y)
      simp [deepEqualPairs, hp, hrest, Prod.ext_iff, and_assoc]

theorem deepEqual_iff_eq (v w : Value) : deepEqual v w = true ↔ v = w := by
  have main : ∀ n v w, vdepth v ≤ n → (deepEqual v w = true ↔ v = w) := by
    intro n
    induction n using Nat.strong_induction_on with
    | _ n ih =>
      intro v w hv
      cases v <;> cases w <;> simp [deepEqual] <;> rename_i xs ys
      · -- list case
        have h1 : 1 ≤ n := le_trans (vdepth_pos _) hv
        refine deepEqualList_iff (fun x hx y => ?_)
        refine ih (n - 1) (by omega) x y ?_
        have := vdepthList_mem hx
        simp [vdepth] at hv
        omega
      · -- map case
        have h1 : 1 ≤ n := le_trans (vdepth_pos _) hv
        refine deepEqualPairs_iff (fun p hp y => ?_)
        refine ih (n - 1) (by omega) p.2 y ?_
        have := vdepthPairs_mem hp
        simp [vdepth] at hv
        omega
  exact main (vdepth v) v w le_rfl

instance : DecidableEq Value := fun v w =>
  decidable_of_iff (deepEqual v w = true) (deepEqual_iff_eq v w)

theorem isNull_iff {v : Value} : isNull v = true ↔ v = Value.null := by
  cases v <;> simp [isNull]

theorem isNull_normalize (v : Value) : isNull (normalizeValue v) = isNull v := by
  cases v <;> simp [normalizeValue, isNull]

theorem normalizeValue_idem (v : Value) :
    normalizeValue (normalizeValue v) = normalizeValue v := by
  cases v <;> simp [normalizeValue]

theorem vdepthPairs_mapStr (m : List (String × String)) :
    vdepthPairs (m.map fun p => (p.1, Value.vStr p.2)) ≤ 1 := by
  induction m with
  | nil => simp [vdepthPairs]
  | cons p ps ih => simp [vdepthPairs, vdepth]; omega

theorem vdepthList_mapStr (xs : List String) :
    vdepthList (xs.map Value.vStr) ≤ 1 := by
  induction xs with
  | nil => simp [vdepthList]
  | cons x xs ih => simp [vdepthList, vdepth]; omega

theorem asMap_normalize_vdepth {v : Value} {m : List (String × Value)}
    (h : asMap (normalizeValue v) = some m) : vdepth (Value.vMap m) ≤ vdepth v := by
  cases v with
  | vMap m0 =>
    simp [normalizeValue, asMap] at h
    subst h; exact le_rfl
  | vStrMap m0 =>
    simp [normalizeValue, asMap] at h
    subst h
    have := vdepthPairs_mapStr m0
    simp [vdepth]
    omega
  | _ => simp [normalizeValue, asMap] at h

theorem asSlice_normalize_vdepth {v : Value} {s : List Value}
    (h : asSlice (normalizeValue v) = some s) : vdepth (Value.vList s) ≤ vdepth v := by
  cases v with
  | vList s0 =>
    simp [normalizeValue, asSlice] at h
    subst h; exact le_rfl
  | vStrList s0 =>
    simp [normalizeValue, asSlice] at h
    subst h
    have := vdepthList_mapStr s0
    simp [vdepth]
    omega
  | _ => simp [normalizeValue, asSlice] at h

theorem removeFirstMatchWith_congr {cmp cmp₁ : Value → Value → Bool} {v : Value}
    (h : ∀ b, cmp v b = cmp₁ v b) :
    ∀ ws, removeFirstMatchWith cmp v ws = removeFirstMatchWith cmp₁ v ws := by
  intro ws
  induction ws with
  | nil => rfl
  | cons w ws ih => simp [removeFirstMatchWith, h w, ih]

theorem greedyWith_congr {cmp cmp₁ : Value → Value → Bool} :
    ∀ {s1 : List Value}, (∀ a ∈ s1, ∀ b, cmp a b = cmp₁ a b) →
    ∀ ws, greedyWith cmp s1 ws = greedyWith cmp₁ s1 ws := by
  intro s1
  induction s1 with
  | nil => intro _ ws; rfl
  | cons v vs ih =>
    intro h ws
    have hv : ∀ b, cmp v b = cmp₁ v b := fun b => h v (by simp) b
    simp only [greedyWith, removeFirstMatchWith_congr hv ws]
    cases removeFirstMatchWith cmp₁ v ws with
    | none => rfl
    | some ws₁ => exact ih (fun a ha b => h a (by simp [ha]) b) ws₁

theorem compareMapsWith_congr {cmp cmp₁ : Value → Value → Bool}
    {m1 m2 : List (String × Value)}
    (h : ∀ p ∈ m1, ∀ b, cmp p.2 b = cmp₁ p.2 b) :
    compareMapsWith cmp m1 m2 = compareMapsWith cmp₁ m1 m2 := by
  unfold compareMapsWith
  have : m1.all (fun p => match mapLookup m2 p.1 with
      | none => false
      | some w => cmp p.2 w) =
      m1.all (fun p => match mapLookup m2 p.1 with
      | none => false
      | some w => cmp₁ p.2 w) := by
    induction m1 with
    | nil => rfl
    | cons p ps ih =>
      simp only [List.all_cons,
        ih (fun q hq b => h q (by simp [hq]) b)]
      cases mapLookup m2 p.1 with
      | none => rfl
      | some w => simp [h p (by simp) w]
  rw [this]

theorem compareCore_congr {cmp cmp₁ : Value → Value → Bool} {n1 n2 : Value}
    (h : ∀ a b, vdepth a < vdepth n1 → cmp a b = cmp₁ a b) :
    compareCore cmp n1 n2 = compareCore cmp₁ n1 n2 := by
  unfold compareCore
  rcases hm1 : asMap n1 with _ | m1 <;> rcases hm2 : asMap n2 with _ | m2 <;>
    simp only [] <;>
    try {
      rcases hs1 : asSlice n1 with _ | s1 <;> rcases hs2 : asSlice n2 with _ | s2 <;>
        simp only []
      case some.some =>
        have hmem : ∀ a ∈ s1, ∀ b, cmp a b = cmp₁ a b := by
          intro a ha b
          refine h a b ?_
          have h1 := vdepthList_mem ha
          have h2 : n1 = Value.vList s1 := by
            cases n1 <;> simp [asSlice] at hs1 <;> simp [hs1]
          rw [h2]
          simp [vdepth]
          omega
        rw [compareSlicesWith, compareSlicesWith, greedyWith_congr hmem]
    }
  case some.some =>
    have hmem : ∀ p ∈ m1, ∀ b, cmp p.2 b = cmp₁ p.2 b := by
      intro p hp b
      refine h p.2 b ?_
      have h1 := vdepthPairs_mem hp
      have h2 : n1 = Value.vMap m1 := by
        cases n1 <;> simp [asMap] at hm1 <;> simp [hm1]
      rw [h2]
      simp [vdepth]
      omega
    exact compareMapsWith_congr hmem

theorem compareValuesF_congr {cmp cmp₁ : Value → Value → Bool} {v1 v2 : Value}
    (h : ∀ a b, vdepth a < vdepth v1 → cmp a b = cmp₁ a b) :
    compareValuesF cmp v1 v2 = compareValuesF cmp₁ v1 v2 := by
  unfold compareValuesF
  have hcore : compareCore cmp (normalizeValue v1) (normalizeValue v2) =
      compareCore cmp₁ (normalizeValue v1) (normalizeValue v2) := by
    refine compareCore_congr fun a b ha => h a b ?_
    have h2 : vdepth (normalizeValue v1) ≤ vdepth v1 := by
      cases v1 with
      | vStrMap m0 =>
        have := vdepthPairs_mapStr m0
        simp [normalizeValue, vdepth]
        omega
      | vStrList s0 =>
        have := vdepthList_mapStr s0
        simp [normalizeValue, vdepth]
        omega
      | _ => simp [normalizeValue, vdepth]
    omega
  rw [hcore]

theorem cmpV_succ (f : Nat) : cmpV (f + 1) = compareValuesF (cmpV f) := rfl

theorem cmpV_fuel_irrelevant :
    ∀ n f g (v1 v2 : Value), vdepth v1 ≤ n → vdepth v1 ≤ f → vdepth v1 ≤ g →
    cmpV f v1 v2 = cmpV g v1 v2 := by
  intro n
  induction n with
  | zero =>
    intro f g v1 v2 hn _ _
    have := vdepth_pos v1
    omega
  | succ n ih =>
    intro f g v1 v2 hn hf hg
    have h1 := vdepth_pos v1
    obtain ⟨f₀, rfl⟩ : ∃ f₀, f = f₀ + 1 := ⟨f - 1, by omega⟩
    obtain ⟨g₀, rfl⟩ : ∃ g₀, g = g₀ + 1 := ⟨g - 1, by omega⟩
    rw [cmpV_succ, cmpV_succ]
    exact compareValuesF_congr fun a b ha =>
      ih f₀ g₀ a b (by omega) (by omega) (by omega)

theorem cmpV_eq_compareValues {f : Nat} {v1 v2 : Value} (h : vdepth v1 ≤ f) :
    cmpV f v1 v2 = compareValues v1 v2 :=
  cmpV_fuel_irrelevant f f (vdepth v1) v1 v2 h h le_rfl

/-- The recursion equation of compareValues: one unfolding of the source
body with the recursive occurrences being compareValues itself. -/
theorem compareValues_def (v1 v2 : Value) :
    compareValues v1 v2 = compareValuesF compareValues v1 v2 := by
  have h1 := vdepth_pos v1
  obtain ⟨d, hd⟩ : ∃ d, vdepth v1 = d + 1 := ⟨vdepth v1 - 1, by omega⟩
  show cmpV (vdepth v1) v1 v2 = _
  rw [hd, cmpV_succ]
  exact compareValuesF_congr fun a b ha =>
    cmpV_eq_compareValues (by omega)

theorem compareValues_normalize (v1 v2 : Value) :
    compareValues v1 v2 = compareValues (normalizeValue v1) (normalizeValue v2) := by
  rw [compareValues_def, compareValues_def]
  unfold compareValuesF
  rw [isNull_normalize, isNull_normalize, normalizeValue_idem, normalizeValue_idem]

theorem isNull_eq_false {v : Value} (h : v ≠ Value.null) : isNull v = false := by
  cases v <;> simp_all [isNull]

theorem compareValues_null_left {v : Value} (h : v ≠ Value.null) :
    compareValues Value.null v = false := by
  rw [compareValues_def]
  unfold compareValuesF
  simp [isNull, isNull_eq_false h]

theorem compareValues_null_right {v : Value} (h : v ≠ Value.null) :
    compareValues v Value.null = false := by
  rw [compareValues_def]
  unfold compareValuesF
  simp [isNull, isNull_eq_false h]

theorem compareValues_map_map (m1 m2 : List (String × Value)) :
    compareValues (Value.vMap m1) (Value.vMap m2) = compareMaps m1 m2 := by
  rw [compareValues_def]
  unfold compareValuesF compareCore
  simp [isNull, normalizeValue, asMap, compareMaps]

theorem compareValues_list_list (s1 s2 : List Value) :
    compareValues (Value.vList s1) (Value.vList s2) = compareSlices s1 s2 := by
  rw [compareValues_def]
  unfold compareValuesF compareCore
  simp [isNull, normalizeValue, asMap, asSlice, compareSlices]

theorem bool_eq_of_iff {a b : Bool} (h : a = true ↔ b = true) : a = b := by
  cases a <;> cases b <;> simp_all

theorem option_match_true_iff (o : Option Value) (f : Value → Bool) :
    (match o with | none => false | some w => f w) = true ↔
      ∃ w, o = some w ∧ f w = true := by
  cases o <;> simp

theorem mapLookup_some_mem {m : List (String × Value)} {k : String} {v : Value}
    (h : mapLookup m k = some v) : (k, v) ∈ m := by
  induction m with
  | nil => simp [mapLookup] at h
  | cons p ps ih =>
    by_cases hk : p.1 = k
    · simp only [mapLookup, if_pos hk, Option.some.injEq] at h
      have hp : p = (k, v) := by
        rw [Prod.ext_iff]
        exact ⟨hk, h⟩
      rw [← hp]
      exact List.mem_cons_self p ps
    · simp only [mapLookup, if_neg hk] at h
      exact List.mem_cons_of_mem _ (ih h)

theorem mapLookup_none_iff {m : List (String × Value)} {k : String} :
    mapLookup m k = none ↔ k ∉ m.map Prod.fst := by
  induction m with
  | nil => simp [mapLookup]
  | cons p ps ih =>
    by_cases hk : p.1 = k
    · simp [mapLookup, hk]
    · rw [mapLookup, if_neg hk, ih, List.map_cons]
      simp only [List.mem_cons, not_or]
      constructor
      · intro h
        exact ⟨fun he => hk he.symm, h⟩
      · intro h
        exact h.2

theorem mapLookup_isSome_iff {m : List (String × Value)} {k : String} :
    (∃ v, mapLookup m k = some v) ↔ k ∈ m.map Prod.fst := by
  cases h : mapLookup m k with
  | none => simp [mapLookup_none_iff.mp h]
  | some v =>
    have : k ∈ m.map Prod.fst := by
      by_contra hc
      rw [← mapLookup_none_iff] at hc
      rw [h] at hc
      cases hc
    simp [this]

theorem mapLookup_of_mem_nodup {m : List (String × Value)}
    (hnd : (m.map Prod.fst).Nodup) {k : String} {v : Value}
    (h : (k, v) ∈ m) : mapLookup m k = some v := by
  induction m with
  | nil => cases h
  | cons p ps ih =>
    rw [List.map_cons, List.nodup_cons] at hnd
    rcases List.mem_cons.mp h with h | h
    · subst h
      simp [mapLookup]
    · have hk : p.1 ≠ k := by
        intro he
        exact hnd.1 (he ▸ (List.mem_map.mpr ⟨(k, v), h, rfl⟩))
      simp only [mapLookup, if_neg hk]
      exact ih hnd.2 h

theorem strNodup_iff_nodup {ks : List String} : strNodup ks = true ↔ ks.Nodup := by
  induction ks with
  | nil => simp [strNodup]
  | cons k rest ih =>
    simp only [strNodup, Bool.and_eq_true, List.all_eq_true, List.nodup_cons, ih,
      bne_iff_ne]
    constructor
    · rintro ⟨h1, h2⟩
      exact ⟨fun hm => h1 k hm rfl, h2⟩
    · rintro ⟨h1, h2⟩
      exact ⟨fun s hs he => h1 (he ▸ hs), h2⟩

theorem set_perm_cons_eraseIdx {α : Type _} :
    ∀ (l : List α) (i : Nat) (a : α), i < l.length →
    (l.set i a).Perm (a :: l.eraseIdx i) := by
  intro l
  induction l with
  | nil => intro i a h; simp at h
  | cons x xs ih =>
    intro i a h
    cases i with
    | zero => simp [List.set]
    | succ i =>
      simp only [List.set, List.eraseIdx]
      refine List.Perm.trans (List.Perm.cons x (ih i a (by simpa using h))) ?_
      exact List.Perm.swap a x _

theorem perm_cons_eraseIdx_self {α : Type _} :
    ∀ (l : List α) (i : Nat) (h : i < l.length),
    l.Perm (l.get ⟨i, h⟩ :: l.eraseIdx i) := by
  intro l
  induction l with
  | nil => intro i h; simp at h
  | cons x xs ih =>
    intro i h
    cases i with
    | zero => simp
    | succ i =>
      simp only [List.get, List.eraseIdx]
      refine List.Perm.trans (List.Perm.cons x (ih i (by simpa using h))) ?_
      exact List.Perm.swap _ x _

theorem mem_of_mem_set {α : Type _} {x a : α} :
    ∀ {l : List α} {i : Nat}, x ∈ l.set i a → x ∈ l ∨ x = a := by
  intro l
  induction l with
  | nil => intro i h; simp at h
  | cons y ys ih =>
    intro i h
    cases i with
    | zero =>
      rcases List.mem_cons.mp h with h | h
      · right; exact h
      · left; exact List.mem_cons_of_mem _ h
    | succ i =>
      rcases List.mem_cons.mp h with h | h
      · left; simp [h]
      · rcases ih h with h | h
        · left; exact List.mem_cons_of_mem _ h
        · right; exact h

theorem subperm_drop_cons {α : Type _} [DecidableEq α] {a : α} {l t : List α}
    (hna : a ∉ l) (h : l.Subperm (a :: t)) : l.Subperm t := by
  rw [List.subperm_ext_iff] at h ⊢
  intro x hx
  have hc := h x hx
  rwa [List.count_cons_of_ne (fun he => hna (by rw [← he]; exact hx)) t] at hc

theorem removeFirstMatchWith_none_iff {R : Value → Value → Bool} {v : Value} :
    ∀ {ws : List Value}, removeFirstMatchWith R v ws = none ↔ ∀ w ∈ ws, R v w = false := by
  intro ws
  induction ws with
  | nil => simp [removeFirstMatchWith]
  | cons w ws ih =>
    by_cases h : R v w
    · simp [removeFirstMatchWith, h]
    · have hf : R v w = false := by simpa using h
      simp only [removeFirstMatchWith, hf, Bool.false_eq_true, if_false]
      cases hrm : removeFirstMatchWith R v ws with
      | none =>
        simp only [List.mem_cons]
        constructor
        · intro _ x hx
          rcases hx with hx | hx
          · subst hx; exact hf
          · exact (ih.mp hrm) x hx
        · intro _; trivial
      | some ws₁ =>
        simp only [List.mem_cons]
        constructor
        · intro hc; cases hc
        · intro hall
          have : removeFirstMatchWith R v ws = none :=
            ih.mpr fun x hx => hall x (Or.inr hx)
          rw [this] at hrm
          cases hrm

theorem removeFirstMatchWith_some {R : Value → Value → Bool} {v : Value} :
    ∀ {ws ws₁ : List Value}, removeFirstMatchWith R v ws = some ws₁ →
    ∃ (i : Nat) (h : i < ws.length),
      R v (ws.get ⟨i, h⟩) = true ∧ ws₁ = ws.set i Value.null := by
  intro ws
  induction ws with
  | nil => intro ws₁ h; simp [removeFirstMatchWith] at h
  | cons w ws ih =>
    intro ws₁ h
    by_cases hw : R v w
    · simp only [removeFirstMatchWith, if_pos hw, Option.some.injEq] at h
      exact ⟨0, by simp, by simpa using hw, by simp [← h, List.set]⟩
    · have hf : R v w = false := by simpa using hw
      simp only [removeFirstMatchWith, hf, Bool.false_eq_true, if_false] at h
      cases hrm : removeFirstMatchWith R v ws with
      | none => rw [hrm] at h; cases h
      | some ws₂ =>
        rw [hrm] at h
        simp only [Option.some.injEq] at h
        obtain ⟨i, hi, hri, hset⟩ := ih hrm
        refine ⟨i + 1, by simpa using Nat.succ_lt_succ hi, ?_, ?_⟩
        · simpa using hri
        · simp [← h, List.set, hset]

theorem removeFirstMatchWith_isSome {R : Value → Value → Bool} {v : Value}
    {ws : List Value} (h : ∃ w ∈ ws, R v w = true) :
    ∃ ws₁, removeFirstMatchWith R v ws = some ws₁ := by
  cases hrm : removeFirstMatchWith R v ws with
  | some ws₁ => exact ⟨ws₁, rfl⟩
  | none =>
    obtain ⟨w, hw, hr⟩ := h
    have := removeFirstMatchWith_none_iff.mp hrm w hw
    rw [hr] at this
    cases this

theorem forall₂_mem_right {R : Value → Value → Prop} :
    ∀ {l₁ l₂ : List Value}, List.Forall₂ R l₁ l₂ → ∀ b ∈ l₂, ∃ a ∈ l₁, R a b := by
  intro l₁ l₂ hF
  induction hF with
  | nil => intro b hb; cases hb
  | cons h hF ih =>
    intro b hb
    rcases List.mem_cons.mp hb with hb | hb
    · subst hb
      exact ⟨_, List.mem_cons_self _ _, h⟩
    · obtain ⟨a, ha, hra⟩ := ih b hb
      exact ⟨a, List.mem_cons_of_mem _ ha, hra⟩

theorem forall₂_mem_left {R : Value → Value → Prop} :
    ∀ {l₁ l₂ : List Value}, List.Forall₂ R l₁ l₂ → ∀ a ∈ l₁, ∃ b ∈ l₂, R a b := by
  intro l₁ l₂ hF
  induction hF with
  | nil => intro a ha; cases ha
  | cons h hF ih =>
    intro a ha
    rcases List.mem_cons.mp ha with ha | ha
    · subst ha
      exact ⟨_, List.mem_cons_self _ _, h⟩
    · obtain ⟨b, hb, hrb⟩ := ih a ha
      exact ⟨b, List.mem_cons_of_mem _ hb, hrb⟩

/-- Soundness of the greedy multiset matching: when it succeeds, a list of
distinct cells of ws matches s1 pointwise.  Only needs that no element of
s1 compares true against nil (so that a tombstone is never consumed). -/
theorem greedyWith_sound {R : Value → Value → Bool} :
    ∀ {s1 : List Value}, (∀ x ∈ s1, R x Value.null = false) →
    ∀ {ws : List Value}, greedyWith R s1 ws = true →
    ∃ l, List.Forall₂ (fun a b => R a b = true) s1 l ∧ l.Subperm ws := by
  intro s1
  induction s1 with
  | nil =>
    intro _ ws _
    exact ⟨[], List.Forall₂.nil, List.nil_subperm⟩
  | cons v vs ih =>
    intro hnn ws hg
    simp only [greedyWith] at hg
    cases hrm : removeFirstMatchWith R v ws with
    | none => rw [hrm] at hg; cases hg
    | some ws₁ =>
      rw [hrm] at hg
      obtain ⟨i, hi, hri, rfl⟩ := removeFirstMatchWith_some hrm
      obtain ⟨l₀, hF, hsub⟩ := ih (fun x hx => hnn x (List.mem_cons_of_mem _ hx)) hg
      have hnonull : Value.null ∉ l₀ := by
        intro hmem
        obtain ⟨a, ha, hra⟩ := forall₂_mem_right hF Value.null hmem
        have hfalse := hnn a (List.mem_cons_of_mem v ha)
        rw [hfalse] at hra
        cases hra
      have hsub₂ : l₀.Subperm (ws.eraseIdx i) := by
        have hperm := set_perm_cons_eraseIdx ws i Value.null hi
        have : l₀.Subperm (Value.null :: ws.eraseIdx i) :=
          hsub.trans hperm.subperm
        exact subperm_drop_cons hnonull this
      refine ⟨ws.get ⟨i, hi⟩ :: l₀, List.forall₂_cons.mpr ⟨hri, hF⟩, ?_⟩
      have h1 : (ws.get ⟨i, hi⟩ :: l₀).Subperm (ws.get ⟨i, hi⟩ :: ws.eraseIdx i) :=
        (List.subperm_cons _).mpr hsub₂
      exact h1.trans (perm_cons_eraseIdx_self ws i hi).symm.subperm

/-- Completeness of the greedy multiset matching: whenever some injective
pointwise matching of s1 into cells of ws exists, the greedy scan succeeds.
Needs nil-freeness of s1 and an exchange property of R over the involved
values (derived below from symmetry and transitivity of compareValues on
wellformed nil-free values). -/
theorem greedyWith_complete {R : Value → Value → Bool} :
    ∀ {s1 ws l : List Value},
    (∀ x ∈ s1, R x Value.null = false) →
    (∀ u ∈ s1, ∀ v₁ ∈ s1, ∀ w, (w ∈ ws ∨ w = Value.null) →
      ∀ w₁, (w₁ ∈ ws ∨ w₁ = Value.null) →
      R u w = true → R v₁ w = true → R v₁ w₁ = true → R u w₁ = true) →
    List.Forall₂ (fun a b => R a b = true) s1 l → l.Subperm ws →
    greedyWith R s1 ws = true := by
  intro s1
  induction s1 with
  | nil => intro ws l _ _ _ _; rfl
  | cons v vs ih =>
    intro ws l hnn hexch hF hsub
    cases l with
    | nil => cases hF
    | cons w₀ l₀ =>
    obtain ⟨hvw₀, hF₀⟩ := List.forall₂_cons.mp hF
    have hw₀mem : w₀ ∈ ws := hsub.subset (List.mem_cons_self _ _)
    obtain ⟨ws₁, hrm⟩ := removeFirstMatchWith_isSome ⟨w₀, hw₀mem, hvw₀⟩
    obtain ⟨i, hi, hw2, rfl⟩ := removeFirstMatchWith_some hrm
    set w2 := ws.get ⟨i, hi⟩ with hw2def
    have hw2mem : w2 ∈ ws := by
      rw [hw2def, List.get_eq_getElem]
      exact List.getElem_mem hi
    have hgoal : greedyWith R (v :: vs) ws = greedyWith R vs (ws.set i Value.null) := by
      simp [greedyWith, hrm]
    rw [hgoal]
    -- hypotheses restricted to the tail and the tombstoned list
    have hnn₁ : ∀ x ∈ vs, R x Value.null = false :=
      fun x hx => hnn x (List.mem_cons_of_mem _ hx)
    have htrans : ∀ w, (w ∈ ws.set i Value.null ∨ w = Value.null) →
        (w ∈ ws ∨ w = Value.null) := by
      intro w hw
      rcases hw with hw | hw
      · exact mem_of_mem_set hw
      · exact Or.inr hw
    have hexch₁ : ∀ u ∈ vs, ∀ v₁ ∈ vs, ∀ w, (w ∈ ws.set i Value.null ∨ w = Value.null) →
        ∀ w₁, (w₁ ∈ ws.set i Value.null ∨ w₁ = Value.null) →
        R u w = true → R v₁ w = true → R v₁ w₁ = true → R u w₁ = true :=
      fun u hu v₁ hv w hw w₁ hw₁ =>
        hexch u (List.mem_cons_of_mem _ hu) v₁ (List.mem_cons_of_mem _ hv)
          w (htrans w hw) w₁ (htrans w₁ hw₁)
    have hnonull₀ : Value.null ∉ l₀ := by
      intro hmem
      obtain ⟨a, ha, hra⟩ := forall₂_mem_right hF₀ Value.null hmem
      have hfalse := hnn₁ a ha
      rw [hfalse] at hra
      cases hra
    have hw₀nn : w₀ ≠ Value.null := by
      intro he
      have := hnn v (List.mem_cons_self _ _)
      rw [he] at hvw₀
      rw [this] at hvw₀
      cases hvw₀
    have hl₀sub : l₀.Subperm ws :=
      ((List.sublist_cons_self w₀ l₀).subperm).trans hsub
    have hperm_set : (ws.set i Value.null).Perm (Value.null :: ws.eraseIdx i) :=
      set_perm_cons_eraseIdx ws i Value.null hi
    have hperm_self : ws.Perm (w2 :: ws.eraseIdx i) :=
      perm_cons_eraseIdx_self ws i hi
    by_cases hcase : l₀.Subperm (ws.eraseIdx i)
    · -- the matched cell is not needed by the residual matching
      have : l₀.Subperm (Value.null :: ws.eraseIdx i) :=
        hcase.trans (List.sublist_cons_self _ _).subperm
      exact ih hnn₁ hexch₁ hF₀ (hperm_set.subperm_left.mpr this)
    · -- the residual matching uses the matched cell w2: rewire one copy
      -- of w2 in l₀ to w₀ via the exchange property
      have hcount_w2 : List.count w2 l₀ = List.count w2 ws ∧ w2 ∈ l₀ := by
        rw [List.subperm_ext_iff] at hcase
        push_neg at hcase
        obtain ⟨x, hxmem, hxlt⟩ := hcase
        have hle := hl₀sub.count_le x
        have hws := hperm_self.count_eq x
        by_cases hxw2 : w2 = x
        · subst hxw2
          rw [List.count_cons_self] at hws
          constructor
          · omega
          · exact hxmem
        · rw [List.count_cons_of_ne (fun he => hxw2 he.symm) _] at hws
          omega
      obtain ⟨hcnt, hw2inl₀⟩ := hcount_w2
      have hw₀ne : w₀ ≠ w2 := by
        intro he
        have hle := hsub.count_le w2
        have hws := hperm_self.count_eq w2
        rw [he, List.count_cons_self] at hle
        omega
      obtain ⟨p, hp, hpe⟩ := List.mem_iff_getElem.mp hw2inl₀
      have hlen := hF₀.length_eq
      -- the rewired residual matching
      refine ih hnn₁ hexch₁ (l := l₀.set p w₀) ?_ ?_
      · -- Forall₂ vs (l₀.set p w₀)
        rw [List.forall₂_iff_get]
        refine ⟨by simp [hlen], ?_⟩
        intro j h₁ h₂
        simp only [List.get_eq_getElem]
        by_cases hjp : j = p
        · subst hjp
          rw [List.getElem_set_self]
          have hu : R vs[j] w2 = true := by
            have hh := hF₀.get h₁ hp
            simp only [List.get_eq_getElem] at hh
            rw [hpe] at hh
            exact hh
          exact hexch vs[j]
            (List.mem_cons_of_mem _ (List.getElem_mem h₁))
            v (List.mem_cons_self _ _) w2 (Or.inl hw2mem) w₀ (Or.inl hw₀mem)
            hu hw2 hvw₀
        · rw [List.getElem_set_ne (fun he => hjp he.symm)]
          have hh := hF₀.get h₁ (by simpa using h₂)
          simp only [List.get_eq_getElem] at hh
          exact hh
      · -- (l₀.set p w₀) <+~ (ws.set i null)
        rw [List.subperm_ext_iff]
        intro x hx
        have hxne : x ≠ Value.null := by
          rcases mem_of_mem_set hx with hmx | hmx
          · intro he; exact hnonull₀ (he ▸ hmx)
          · intro he; exact hw₀nn (hmx ▸ he)
        have h1 := (set_perm_cons_eraseIdx l₀ p w₀ hp).count_eq x
        have h2 : List.count x l₀ = List.count x (w2 :: l₀.eraseIdx p) := by
          have hh := (perm_cons_eraseIdx_self l₀ p hp).count_eq x
          rw [List.get_eq_getElem, hpe] at hh
          exact hh
        have h3 := hperm_self.count_eq x
        have h4 := hperm_set.count_eq x
        have h5 := hsub.count_le x
        have h6 : List.count x (Value.null :: ws.eraseIdx i) =
            List.count x (ws.eraseIdx i) :=
          List.count_cons_of_ne hxne _
        have h7 : List.count x (w₀ :: l₀) = List.count x l₀ + (if w₀ = x then 1 else 0) := by
          by_cases hw : w₀ = x
          · subst hw; rw [List.count_cons_self]; simp
          · rw [List.count_cons_of_ne (fun he => hw he.symm) _]; simp [hw]
        have h8 : List.count x (w₀ :: l₀.eraseIdx p) =
            List.count x (l₀.eraseIdx p) + (if w₀ = x then 1 else 0) := by
          by_cases hw : w₀ = x
          · subst hw; rw [List.count_cons_self]; simp
          · rw [List.count_cons_of_ne (fun he => hw he.symm) _]; simp [hw]
        have h9 : List.count x (w2 :: l₀.eraseIdx p) =
            List.count x (l₀.eraseIdx p) + (if w2 = x then 1 else 0) := by
          by_cases hw : w2 = x
          · subst hw; rw [List.count_cons_self]; simp
          · rw [List.count_cons_of_ne (fun he => hw he.symm) _]; simp [hw]
        have h10 : List.count x (w2 :: ws.eraseIdx i) =
            List.count x (ws.eraseIdx i) + (if w2 = x then 1 else 0) := by
          by_cases hw : w2 = x
          · subst hw; rw [List.count_cons_self]; simp
          · rw [List.count_cons_of_ne (fun he => hw he.symm) _]; simp [hw]
        by_cases hxw2 : w2 = x
        · have hxw₀ : ¬ w₀ = x := fun he => hw₀ne (by rw [he, ← hxw2])
          simp only [if_pos hxw2, if_neg hxw₀] at h1 h2 h3 h4 h7 h8 h9 h10
          omega
        · simp only [if_neg hxw2] at h9 h10
          by_cases hxw₀ : w₀ = x
          · simp only [if_pos hxw₀] at h1 h7 h8
            omega
          · simp only [if_neg hxw₀] at h1 h7 h8
            omega

theorem removeFirstMatchWith_self_prefix {R : Value → Value → Bool} {v : Value}
    (hrv : R v v = true) :
    ∀ (t s₁ : List Value),
    ∃ t₁, removeFirstMatchWith R v (t ++ v :: s₁) = some (t₁ ++ s₁) := by
  intro t
  induction t with
  | nil =>
    intro s₁
    exact ⟨[Value.null], by simp [removeFirstMatchWith, hrv]⟩
  | cons w t ih =>
    intro s₁
    by_cases hw : R v w
    · refine ⟨Value.null :: (t ++ [v]), ?_⟩
      simp [removeFirstMatchWith, hw]
    · obtain ⟨t₁, ht⟩ := ih s₁
      refine ⟨w :: t₁, ?_⟩
      have hf : R v w = false := by simpa using hw
      simp [removeFirstMatchWith, hf, ht]

theorem greedyWith_refl {R : Value → Value → Bool} :
    ∀ {s : List Value}, (∀ x ∈ s, R x x = true) →
    ∀ t, greedyWith R s (t ++ s) = true := by
  intro s
  induction s with
  | nil => intro _ t; rfl
  | cons v vs ih =>
    intro h t
    obtain ⟨t₁, ht⟩ := removeFirstMatchWith_self_prefix (h v (by simp)) t vs
    simp only [greedyWith, ht]
    exact ih (fun x hx => h x (by simp [hx])) t₁

theorem kuList_mem {xs : List Value} (h : kuList xs = true) {x : Value} (hx : x ∈ xs) :
    keysUnique x = true := by
  induction xs with
  | nil => cases hx
  | cons y ys ih =>
    simp only [kuList, Bool.and_eq_true] at h
    rcases List.mem_cons.mp hx with hx | hx
    · subst hx; exact h.1
    · exact ih h.2 hx

theorem kuPairs_mem {m : List (String × Value)} (h : kuPairs m = true)
    {p : String × Value} (hp : p ∈ m) : keysUnique p.2 = true := by
  induction m with
  | nil => cases hp
  | cons q qs ih =>
    simp only [kuPairs, Bool.and_eq_true] at h
    rcases List.mem_cons.mp hp with hp | hp
    · subst hp; exact h.1
    · exact ih h.2 hp

theorem lnnList_mem {xs : List Value} (h : lnnList xs = true) {x : Value} (hx : x ∈ xs) :
    x ≠ Value.null ∧ listsNoNull x = true := by
  induction xs with
  | nil => cases hx
  | cons y ys ih =>
    simp only [lnnList, Bool.and_eq_true] at h
    rcases List.mem_cons.mp hx with hx | hx
    · subst hx
      refine ⟨?_, h.1.2⟩
      intro he
      rw [he] at h
      simp [isNull] at h
    · exact ih h.2 hx

theorem lnnPairs_mem {m : List (String × Value)} (h : lnnPairs m = true)
    {p : String × Value} (hp : p ∈ m) : listsNoNull p.2 = true := by
  induction m with
  | nil => cases hp
  | cons q qs ih =>
    simp only [lnnPairs, Bool.and_eq_true] at h
    rcases List.mem_cons.mp hp with hp | hp
    · subst hp; exact h.1
    · exact ih h.2 hp

theorem kuPairs_mapStr (m : List (String × String)) :
    kuPairs (m.map fun p => (p.1, Value.vStr p.2)) = true := by
  induction m with
  | nil => rfl
  | cons p ps ih => simp [kuPairs, keysUnique, ih]

theorem lnnPairs_mapStr (m : List (String × String)) :
    lnnPairs (m.map fun p => (p.1, Value.vStr p.2)) = true := by
  induction m with
  | nil => rfl
  | cons p ps ih => simp [lnnPairs, listsNoNull, ih]

theorem kuList_mapStr (xs : List String) :
    kuList (xs.map Value.vStr) = true := by
  induction xs with
  | nil => rfl
  | cons x xs ih => simp [kuList, keysUnique, ih]

theorem lnnList_mapStr (xs : List String) :
    lnnList (xs.map Value.vStr) = true := by
  induction xs with
  | nil => rfl
  | cons x xs ih => simp [lnnList, listsNoNull, isNull, ih]

theorem keysUnique_normalize (v : Value) :
    keysUnique (normalizeValue v) = keysUnique v := by
  cases v with
  | vStrMap m =>
    simp only [normalizeValue, keysUnique]
    rw [kuPairs_mapStr m]
    have : (List.map (fun p => (p.1, Value.vStr p.2)) m).map Prod.fst = m.map Prod.fst := by
      simp [List.map_map]
    rw [this]
    simp
  | vStrList xs =>
    simp only [normalizeValue, keysUnique]
    rw [kuList_mapStr xs]
  | _ => rfl

theorem listsNoNull_normalize (v : Value) :
    listsNoNull (normalizeValue v) = listsNoNull v := by
  cases v with
  | vStrMap m =>
    simp only [normalizeValue, listsNoNull]
    rw [lnnPairs_mapStr m]
  | vStrList xs =>
    simp only [normalizeValue, listsNoNull]
    rw [lnnList_mapStr xs]
  | _ => rfl

theorem vdepth_normalize_le (v : Value) : vdepth (normalizeValue v) ≤ vdepth v := by
  cases v with
  | vStrMap m0 =>
    have := vdepthPairs_mapStr m0
    simp [normalizeValue, vdepth]
    omega
  | vStrList s0 =>
    have := vdepthList_mapStr s0
    simp [normalizeValue, vdepth]
    omega
  | _ => simp [normalizeValue, vdepth]

theorem asMap_shape {n : Value} {m : List (String × Value)} (h : asMap n = some m) :
    n = Value.vMap m := by
  cases n <;> simp_all [asMap]

theorem asSlice_shape {n : Value} {s : List Value} (h : asSlice n = some s) :
    n = Value.vList s := by
  cases n <;> simp_all [asSlice]

/-- Reflexivity of compareValues on every value whose maps have unique
keys (every Go value qualifies). -/
theorem compareValues_refl : ∀ (v : Value), keysUnique v = true →
    compareValues v v = true := by
  have main : ∀ n v, vdepth v ≤ n → keysUnique v = true → compareValues v v = true := by
    intro n
    induction n using Nat.strong_induction_on with
    | _ n ih =>
      intro v hv hku
      by_cases hnull : v = Value.null
      · subst hnull; decide
      · rw [compareValues_def]
        unfold compareValuesF
        rw [isNull_eq_false hnull]
        simp only [Bool.false_and, Bool.false_or, Bool.false_eq_true, if_false]
        have hdn : vdepth (normalizeValue v) ≤ vdepth v := vdepth_normalize_le v
        have hkun : keysUnique (normalizeValue v) = true := by
          rw [keysUnique_normalize]; exact hku
        have h1 : 1 ≤ vdepth v := vdepth_pos v
        unfold compareCore
        rcases hm : asMap (normalizeValue v) with _ | m
        · rcases hs : asSlice (normalizeValue v) with _ | s
          · simp only []
            exact (deepEqual_iff_eq _ _).mpr rfl
          · simp only []
            have hshape := asSlice_shape hs
            unfold compareSlicesWith
            simp only [beq_self_eq_true, Bool.true_and]
            have hdepth : vdepthList s < vdepth (normalizeValue v) := by
              rw [hshape, vdepth]
              omega
            have hmemrefl : ∀ x ∈ s, compareValues x x = true := by
              intro x hx
              refine ih (n - 1) (by omega) x ?_ ?_
              · have := vdepthList_mem hx
                omega
              · have hk : kuList s = true := by
                  have := hkun
                  rw [hshape] at this
                  simpa [keysUnique] using this
                exact kuList_mem hk hx
            have := greedyWith_refl hmemrefl []
            simpa using this
        · simp only []
          have hshape := asMap_shape hm
          unfold compareMapsWith
          simp only [beq_self_eq_true, Bool.true_and, List.all_eq_true]
          intro p hp
          have hk : strNodup (m.map Prod.fst) = true ∧ kuPairs m = true := by
            have := hkun
            rw [hshape] at this
            simpa [keysUnique] using this
          have hlook : mapLookup m p.1 = some p.2 := by
            refine mapLookup_of_mem_nodup (strNodup_iff_nodup.mp hk.1) ?_
            exact hp
          rw [hlook]
          refine ih (n - 1) (by omega) p.2 ?_ ?_
          · have := vdepthPairs_mem hp
            have : vdepth p.2 < vdepth (normalizeValue v) := by
              rw [hshape, vdepth]
              omega
            omega
          · exact kuPairs_mem hk.2 hp
  exact fun v => main (vdepth v) v le_rfl

theorem deepEqual_comm (a b : Value) : deepEqual a b = deepEqual b a := by
  by_cases h : a = b
  · subst h; rfl
  · have h1 : deepEqual a b = false := by
      rcases hd : deepEqual a b with _ | _
      · rfl
      · exact absurd ((deepEqual_iff_eq a b).mp hd) h
    have h2 : deepEqual b a = false := by
      rcases hd : deepEqual b a with _ | _
      · rfl
      · exact absurd ((deepEqual_iff_eq b a).mp hd).symm h
    rw [h1, h2]

theorem compareMapsWith_true_iff {cmp : Value → Value → Bool}
    {m1 m2 : List (String × Value)} :
    compareMapsWith cmp m1 m2 = true ↔
      m1.length = m2.length ∧
      ∀ p ∈ m1, ∃ w, mapLookup m2 p.1 = some w ∧ cmp p.2 w = true := by
  unfold compareMapsWith
  simp only [Bool.and_eq_true, beq_iff_eq, List.all_eq_true, option_match_true_iff]

theorem forall₂_exchange {R : Value → Value → Prop} :
    ∀ {l₁ l₂ : List Value}, List.Forall₂ R l₁ l₂ →
    List.Forall₂ (fun b a => R a b) l₂ l₁ := by
  intro l₁ l₂ h
  induction h with
  | nil => exact List.Forall₂.nil
  | cons ha _ ih => exact List.Forall₂.cons ha ih

theorem forall₂_imp_mem {R S : Value → Value → Prop} :
    ∀ {l₁ l₂ : List Value}, List.Forall₂ R l₁ l₂ →
    (∀ a ∈ l₁, ∀ b ∈ l₂, R a b → S a b) → List.Forall₂ S l₁ l₂ := by
  intro l₁ l₂ hF
  induction hF with
  | nil => intro _; exact List.Forall₂.nil
  | cons ha hF ih =>
    intro h
    refine List.Forall₂.cons
      (h _ (List.mem_cons_self _ _) _ (List.mem_cons_self _ _) ha) ?_
    exact ih fun a ha₁ b hb₁ hr =>
      h a (List.mem_cons_of_mem _ ha₁) b (List.mem_cons_of_mem _ hb₁) hr

theorem forall₂_trans_mem {R : Value → Value → Prop} :
    ∀ {l₁ l₂ : List Value}, List.Forall₂ R l₁ l₂ →
    ∀ {l₃ : List Value}, List.Forall₂ R l₂ l₃ →
    (∀ a ∈ l₁, ∀ b ∈ l₂, ∀ c ∈ l₃, R a b → R b c → R a c) →
    List.Forall₂ R l₁ l₃ := by
  intro l₁ l₂ h12
  induction h12 with
  | nil =>
    intro l₃ h23 _
    cases h23
    exact List.Forall₂.nil
  | cons ha hF ih =>
    intro l₃ h23 htr
    cases h23 with
    | cons hb hF₂ =>
      refine List.Forall₂.cons
        (htr _ (List.mem_cons_self _ _) _ (List.mem_cons_self _ _) _
          (List.mem_cons_self _ _) ha hb) ?_
      exact ih hF₂ fun a ha₁ b hb₁ c hc₁ h1 h2 =>
        htr a (List.mem_cons_of_mem _ ha₁) b (List.mem_cons_of_mem _ hb₁)
          c (List.mem_cons_of_mem _ hc₁) h1 h2

theorem forall₂_perm_right {R : Value → Value → Prop} :
    ∀ {l₂ l₂' : List Value}, l₂.Perm l₂' →
    ∀ {l₁ : List Value}, List.Forall₂ R l₁ l₂ →
    ∃ l₁', l₁'.Perm l₁ ∧ List.Forall₂ R l₁' l₂' := by
  intro l₂ l₂' hperm
  induction hperm with
  | nil =>
    intro l₁ hF
    cases hF
    exact ⟨[], List.Perm.nil, List.Forall₂.nil⟩
  | cons x _ ih =>
    intro l₁ hF
    cases hF with
    | cons ha hF₀ =>
      obtain ⟨t, htp, htF⟩ := ih hF₀
      exact ⟨_ :: t, htp.cons _, List.Forall₂.cons ha htF⟩
  | swap x y t =>
    intro l₁ hF
    cases hF with
    | cons ha hF₀ =>
      cases hF₀ with
      | cons hb hF₁ =>
        exact ⟨_ :: _ :: _, List.Perm.swap _ _ _, List.Forall₂.cons hb
          (List.Forall₂.cons ha hF₁)⟩
  | trans h1 h2 ih1 ih2 =>
    intro l₁ hF
    obtain ⟨t, htp, htF⟩ := ih1 hF
    obtain ⟨u, hup, huF⟩ := ih2 htF
    exact ⟨u, hup.trans htp, huF⟩

theorem forall₂_perm_left {R : Value → Value → Prop}
    {l₁ l₁' : List Value} (hperm : l₁.Perm l₁')
    {l₂ : List Value} (hF : List.Forall₂ R l₁ l₂) :
    ∃ l₂', l₂'.Perm l₂ ∧ List.Forall₂ R l₁' l₂' := by
  have h1 : List.Forall₂ (fun b a => R a b) l₂ l₁ := forall₂_exchange hF
  obtain ⟨l₂', hp, hF'⟩ := forall₂_perm_right hperm h1
  exact ⟨l₂', hp, forall₂_exchange hF'⟩

theorem keys_mem_of_pair_mem {m : List (String × Value)} {p : String × Value}
    (h : p ∈ m) : p.1 ∈ m.map Prod.fst :=
  List.mem_map.mpr ⟨p, h, rfl⟩

/-- One direction of map-equality symmetry, conditional on key uniqueness
and pointwise symmetry of the element comparison. -/
theorem compareMaps_symm_oneway {m1 m2 : List (String × Value)}
    (hnd1 : strNodup (m1.map Prod.fst) = true)
    (hnd2 : strNodup (m2.map Prod.fst) = true)
    (hsym : ∀ p ∈ m1, ∀ q ∈ m2, compareValues p.2 q.2 = compareValues q.2 p.2)
    (h : compareMaps m1 m2 = true) : compareMaps m2 m1 = true := by
  rw [compareMaps, compareMapsWith_true_iff] at h ⊢
  obtain ⟨hlen, hall⟩ := h
  have hkeys : (m1.map Prod.fst).Perm (m2.map Prod.fst) := by
    have hsubset : (m1.map Prod.fst) ⊆ (m2.map Prod.fst) := by
      intro k hk
      obtain ⟨p, hp, hpe⟩ := List.mem_map.mp hk
      obtain ⟨w, hw, _⟩ := hall p hp
      rw [hpe] at hw
      exact mapLookup_isSome_iff.mp ⟨w, hw⟩
    have hsp := List.subperm_of_subset (strNodup_iff_nodup.mp hnd1) hsubset
    exact hsp.perm_of_length_le (by simp [hlen])
  refine ⟨hlen.symm, ?_⟩
  intro q hq
  have hqk : q.1 ∈ m1.map Prod.fst :=
    (hkeys.mem_iff).mpr (keys_mem_of_pair_mem hq)
  obtain ⟨v, hv⟩ := mapLookup_isSome_iff.mpr hqk
  have hvm : (q.1, v) ∈ m1 := mapLookup_some_mem hv
  obtain ⟨w, hw, hr⟩ := hall (q.1, v) hvm
  have hwq : w = q.2 := by
    have := mapLookup_of_mem_nodup (strNodup_iff_nodup.mp hnd2) hq
    rw [this] at hw
    exact (Option.some.injEq _ _).mp hw.symm
  subst hwq
  refine ⟨v, hv, ?_⟩
  rw [← hsym (q.1, v) hvm q hq]
  exact hr

/-- Transitivity of map equality, conditional on pointwise transitivity
of the element comparison. -/
theorem compareMaps_trans_hyp {m1 m2 m3 : List (String × Value)}
    (htr : ∀ p ∈ m1, ∀ q ∈ m2, ∀ r ∈ m3,
      compareValues p.2 q.2 = true → compareValues q.2 r.2 = true →
      compareValues p.2 r.2 = true)
    (h12 : compareMaps m1 m2 = true) (h23 : compareMaps m2 m3 = true) :
    compareMaps m1 m3 = true := by
  rw [compareMaps, compareMapsWith_true_iff] at h12 h23 ⊢
  obtain ⟨hlen12, hall12⟩ := h12
  obtain ⟨hlen23, hall23⟩ := h23
  refine ⟨hlen12.trans hlen23, ?_⟩
  intro p hp
  obtain ⟨w, hw, hrw⟩ := hall12 p hp
  have hwm : (p.1, w) ∈ m2 := mapLookup_some_mem hw
  obtain ⟨u, hu, hru⟩ := hall23 (p.1, w) hwm
  refine ⟨u, hu, ?_⟩
  exact htr p hp (p.1, w) hwm (p.1, u) (mapLookup_some_mem hu) hrw hru

theorem compareValues_nonnull {v1 v2 : Value} (h1 : v1 ≠ Value.null)
    (h2 : v2 ≠ Value.null) :
    compareValues v1 v2 =
      compareCore compareValues (normalizeValue v1) (normalizeValue v2) := by
  rw [compareValues_def]
  unfold compareValuesF
  rw [isNull_eq_false h1, isNull_eq_false h2]
  simp

theorem compareCore_fallback {cmp : Value → Value → Bool} {n1 n2 : Value}
    (hnm : asMap n1 = none ∨ asMap n2 = none)
    (hns : asSlice n1 = none ∨ asSlice n2 = none) :
    compareCore cmp n1 n2 = deepEqual n1 n2 := by
  unfold compareCore
  rcases hm1 : asMap n1 with _ | m1 <;> rcases hm2 : asMap n2 with _ | m2 <;>
    rcases hs1 : asSlice n1 with _ | s1 <;> rcases hs2 : asSlice n2 with _ | s2 <;>
    simp_all

theorem compareCore_map {cmp : Value → Value → Bool} {n1 n2 : Value}
    {m1 m2 : List (String × Value)}
    (h1 : asMap n1 = some m1) (h2 : asMap n2 = some m2) :
    compareCore cmp n1 n2 = compareMapsWith cmp m1 m2 := by
  unfold compareCore
  rw [h1, h2]

theorem compareCore_slice {cmp : Value → Value → Bool} {n1 n2 : Value}
    {s1 s2 : List Value}
    (h1 : asSlice n1 = some s1) (h2 : asSlice n2 = some s2) :
    compareCore cmp n1 n2 = compareSlicesWith cmp s1 s2 := by
  have e1 := asSlice_shape h1
  have e2 := asSlice_shape h2
  subst e1
  subst e2
  rfl

theorem compareSlices_true_iff_hyp {s1 s2 : List Value}
    (hnn : ∀ x ∈ s1, x ≠ Value.null)
    (hexch : ∀ u ∈ s1, ∀ v₁ ∈ s1, ∀ w ∈ s2, ∀ w₁ ∈ s2,
      compareValues u w = true → compareValues v₁ w = true →
      compareValues v₁ w₁ = true → compareValues u w₁ = true) :
    compareSlices s1 s2 = true ↔
      (s1.length = s2.length ∧
       ∃ l, List.Forall₂ (fun a b => compareValues a b = true) s1 l ∧ l.Subperm s2) := by
  have hnn₂ : ∀ x ∈ s1, compareValues x Value.null = false :=
    fun x hx => compareValues_null_right (hnn x hx)
  unfold compareSlices compareSlicesWith
  simp only [Bool.and_eq_true, beq_iff_eq]
  constructor
  · rintro ⟨hlen, hg⟩
    exact ⟨hlen, greedyWith_sound hnn₂ hg⟩
  · rintro ⟨hlen, l, hF, hsub⟩
    refine ⟨hlen, ?_⟩
    refine greedyWith_complete hnn₂ ?_ hF hsub
    intro u hu v₁ hv w hw w₁ hw₁ h1 h2 h3
    rcases hw with hw | hw
    · rcases hw₁ with hw₁ | hw₁
      · exact hexch u hu v₁ hv w hw w₁ hw₁ h1 h2 h3
      · rw [hw₁] at h3
        rw [hnn₂ v₁ hv] at h3
        cases h3
    · rw [hw] at h1
      rw [hnn₂ u hu] at h1
      cases h1

theorem matching_symm_hyp {R : Value → Value → Bool} {s1 s2 l : List Value}
    (hlen : s1.length = s2.length)
    (hsym : ∀ a ∈ s1, ∀ b ∈ s2, R a b = R b a)
    (hF : List.Forall₂ (fun a b => R a b = true) s1 l) (hsub : l.Subperm s2) :
    ∃ l₁, List.Forall₂ (fun a b => R a b = true) s2 l₁ ∧ l₁.Subperm s1 := by
  have hlenl : l.length = s1.length := hF.length_eq.symm
  have hperm : l.Perm s2 := hsub.perm_of_length_le (by omega)
  obtain ⟨s1', hs1p, hF₁⟩ := forall₂_perm_right hperm hF
  have hswap := forall₂_exchange hF₁
  have hconv : List.Forall₂ (fun a b => R a b = true) s2 s1' := by
    refine forall₂_imp_mem hswap ?_
    intro b hb a ha hr
    rw [← hsym a (hs1p.subset ha) b hb]
    exact hr
  exact ⟨s1', hconv, hs1p.subperm⟩

theorem matching_trans_hyp {R : Value → Value → Bool}
    {s1 s2 s3 l₁₂ l₂₃ : List Value}
    (hperm12 : l₁₂.Perm s2)
    (hF12 : List.Forall₂ (fun a b => R a b = true) s1 l₁₂)
    (hF23 : List.Forall₂ (fun a b => R a b = true) s2 l₂₃)
    (hsub23 : l₂₃.Subperm s3)
    (htr : ∀ a ∈ s1, ∀ b ∈ s2, ∀ c ∈ s3,
      R a b = true → R b c = true → R a c = true) :
    ∃ l, List.Forall₂ (fun a b => R a b = true) s1 l ∧ l.Subperm s3 := by
  obtain ⟨l₂₃', hp, hF₂⟩ := forall₂_perm_left hperm12.symm hF23
  refine ⟨l₂₃', ?_, (hp.subperm).trans hsub23⟩
  exact forall₂_trans_mem hF12 hF₂ fun a ha b hb c hc h1 h2 =>
    htr a ha b (hperm12.subset hb) c (hsub23.subset (hp.subset hc)) h1 h2

/-- Symmetry and transitivity of compareValues on wellformed values in
which no list holds a nil element, proved together by strong induction on
value depth. -/
theorem compareValues_symm_trans_main : ∀ n : Nat,
    (∀ v1 v2 : Value, vdepth v1 ≤ n → vdepth v2 ≤ n →
      keysUnique v1 = true → listsNoNull v1 = true →
      keysUnique v2 = true → listsNoNull v2 = true →
      compareValues v1 v2 = compareValues v2 v1) ∧
    (∀ v1 v2 v3 : Value, vdepth v1 ≤ n → vdepth v2 ≤ n → vdepth v3 ≤ n →
      keysUnique v1 = true → listsNoNull v1 = true →
      keysUnique v2 = true → listsNoNull v2 = true →
      keysUnique v3 = true → listsNoNull v3 = true →
      compareValues v1 v2 = true → compareValues v2 v3 = true →
      compareValues v1 v3 = true) := by
  intro n
  induction n using Nat.strong_induction_on with
  | _ n ih =>
  have IHsym : ∀ a b : Value, vdepth a < n → vdepth b < n →
      keysUnique a = true → listsNoNull a = true →
      keysUnique b = true → listsNoNull b = true →
      compareValues a b = compareValues b a := by
    intro a b ha hb hka hla hkb hlb
    have hpa := vdepth_pos a
    exact (ih (n - 1) (by omega)).1 a b (by omega) (by omega) hka hla hkb hlb
  have IHtrans : ∀ a b c : Value, vdepth a < n → vdepth b < n → vdepth c < n →
      keysUnique a = true → listsNoNull a = true →
      keysUnique b = true → listsNoNull b = true →
      keysUnique c = true → listsNoNull c = true →
      compareValues a b = true → compareValues b c = true →
      compareValues a c = true := by
    intro a b c ha hb hc hka hla hkb hlb hkc hlc hab hbc
    have hpa := vdepth_pos a
    exact (ih (n - 1) (by omega)).2 a b c (by omega) (by omega) (by omega)
      hka hla hkb hlb hkc hlc hab hbc
  constructor
  · -- symmetry
    intro v1 v2 h1 h2 hku1 hln1 hku2 hln2
    by_cases hn1 : v1 = Value.null
    · subst hn1
      by_cases hn2 : v2 = Value.null
      · subst hn2; rfl
      · rw [compareValues_null_left hn2, compareValues_null_right hn2]
    · by_cases hn2 : v2 = Value.null
      · subst hn2
        rw [compareValues_null_right hn1, compareValues_null_left hn1]
      · rw [compareValues_nonnull hn1 hn2, compareValues_nonnull hn2 hn1]
        have hdn1 : vdepth (normalizeValue v1) ≤ n :=
          le_trans (vdepth_normalize_le v1) h1
        have hdn2 : vdepth (normalizeValue v2) ≤ n :=
          le_trans (vdepth_normalize_le v2) h2
        have hkn1 : keysUnique (normalizeValue v1) = true := by
          rw [keysUnique_normalize]; exact hku1
        have hkn2 : keysUnique (normalizeValue v2) = true := by
          rw [keysUnique_normalize]; exact hku2
        have hln1n : listsNoNull (normalizeValue v1) = true := by
          rw [listsNoNull_normalize]; exact hln1
        have hln2n : listsNoNull (normalizeValue v2) = true := by
          rw [listsNoNull_normalize]; exact hln2
        rcases hm1 : asMap (normalizeValue v1) with _ | m1
        · rcases hs1 : asSlice (normalizeValue v1) with _ | s1
          · rw [compareCore_fallback (Or.inl hm1) (Or.inl hs1),
                compareCore_fallback (Or.inr hm1) (Or.inr hs1), deepEqual_comm]
          · rcases hs2 : asSlice (normalizeValue v2) with _ | s2
            · rw [compareCore_fallback (Or.inl hm1) (Or.inr hs2),
                  compareCore_fallback (Or.inr hm1) (Or.inl hs2), deepEqual_comm]
            · -- both lists
              have e1 := asSlice_shape hs1
              have e2 := asSlice_shape hs2
              rw [compareCore_slice hs1 hs2, compareCore_slice hs2 hs1]
              rw [e1] at hdn1 hkn1 hln1n
              rw [e2] at hdn2 hkn2 hln2n
              simp only [vdepth] at hdn1 hdn2
              simp only [keysUnique] at hkn1 hkn2
              simp only [listsNoNull] at hln1n hln2n
              have hels1 : ∀ x ∈ s1, vdepth x < n ∧ keysUnique x = true ∧
                  listsNoNull x = true ∧ x ≠ Value.null := by
                intro x hx
                have hd := vdepthList_mem hx
                have hl := lnnList_mem hln1n hx
                exact ⟨by omega, kuList_mem hkn1 hx, hl.2, hl.1⟩
              have hels2 : ∀ x ∈ s2, vdepth x < n ∧ keysUnique x = true ∧
                  listsNoNull x = true ∧ x ≠ Value.null := by
                intro x hx
                have hd := vdepthList_mem hx
                have hl := lnnList_mem hln2n hx
                exact ⟨by omega, kuList_mem hkn2 hx, hl.2, hl.1⟩
              have hsymEl : ∀ a ∈ s1, ∀ b ∈ s2,
                  compareValues a b = compareValues b a := by
                intro a ha b hb
                obtain ⟨da, ka, la, _⟩ := hels1 a ha
                obtain ⟨db, kb, lb, _⟩ := hels2 b hb
                exact IHsym a b da db ka la kb lb
              have hexch12 : ∀ u ∈ s1, ∀ v₁ ∈ s1, ∀ w ∈ s2, ∀ w₁ ∈ s2,
                  compareValues u w = true → compareValues v₁ w = true →
                  compareValues v₁ w₁ = true → compareValues u w₁ = true := by
                intro u hu v₁ hv w hw w₁ hw₁ hr1 hr2 hr3
                obtain ⟨du, ku, lu, _⟩ := hels1 u hu
                obtain ⟨dv, kv, lv, _⟩ := hels1 v₁ hv
                obtain ⟨dw, kw, lw, _⟩ := hels2 w hw
                obtain ⟨dw₁, kw₁, lw₁, _⟩ := hels2 w₁ hw₁
                have hwv : compareValues w v₁ = true := by
                  rw [← IHsym v₁ w dv dw kv lv kw lw]; exact hr2
                have huv : compareValues u v₁ = true :=
                  IHtrans u w v₁ du dw dv ku lu kw lw kv lv hr1 hwv
                exact IHtrans u v₁ w₁ du dv dw₁ ku lu kv lv kw₁ lw₁ huv hr3
              have hexch21 : ∀ u ∈ s2, ∀ v₁ ∈ s2, ∀ w ∈ s1, ∀ w₁ ∈ s1,
                  compareValues u w = true → compareValues v₁ w = true →
                  compareValues v₁ w₁ = true → compareValues u w₁ = true := by
                intro u hu v₁ hv w hw w₁ hw₁ hr1 hr2 hr3
                obtain ⟨du, ku, lu, _⟩ := hels2 u hu
                obtain ⟨dv, kv, lv, _⟩ := hels2 v₁ hv
                obtain ⟨dw, kw, lw, _⟩ := hels1 w hw
                obtain ⟨dw₁, kw₁, lw₁, _⟩ := hels1 w₁ hw₁
                have hwv : compareValues w v₁ = true := by
                  rw [← IHsym v₁ w dv dw kv lv kw lw]; exact hr2
                have huv : compareValues u v₁ = true :=
                  IHtrans u w v₁ du dw dv ku lu kw lw kv lv hr1 hwv
                exact IHtrans u v₁ w₁ du dv dw₁ ku lu kv lv kw₁ lw₁ huv hr3
              have hnn1 : ∀ x ∈ s1, x ≠ Value.null := fun x hx => (hels1 x hx).2.2.2
              have hnn2 : ∀ x ∈ s2, x ≠ Value.null := fun x hx => (hels2 x hx).2.2.2
              have hiff12 := compareSlices_true_iff_hyp hnn1 hexch12
              have hiff21 := compareSlices_true_iff_hyp hnn2 hexch21
              show compareSlices s1 s2 = compareSlices s2 s1
              refine bool_eq_of_iff ?_
              rw [hiff12, hiff21]
              constructor
              · rintro ⟨hlen, l, hF, hsub⟩
                obtain ⟨l₁, hF₁, hsub₁⟩ := matching_symm_hyp hlen hsymEl hF hsub
                exact ⟨hlen.symm, l₁, hF₁, hsub₁⟩
              · rintro ⟨hlen, l, hF, hsub⟩
                have hsymEl₂ : ∀ a ∈ s2, ∀ b ∈ s1,
                    compareValues a b = compareValues b a :=
                  fun a ha b hb => (hsymEl b hb a ha).symm
                obtain ⟨l₁, hF₁, hsub₁⟩ := matching_symm_hyp hlen hsymEl₂ hF hsub
                exact ⟨hlen.symm, l₁, hF₁, hsub₁⟩
        · rcases hm2 : asMap (normalizeValue v2) with _ | m2
          · have hs1 : asSlice (normalizeValue v1) = none := by
              rw [asMap_shape hm1]; rfl
            rw [compareCore_fallback (Or.inr hm2) (Or.inl hs1),
                compareCore_fallback (Or.inl hm2) (Or.inr hs1), deepEqual_comm]
          · -- both maps
            have e1 := asMap_shape hm1
            have e2 := asMap_shape hm2
            rw [compareCore_map hm1 hm2, compareCore_map hm2 hm1]
            rw [e1] at hdn1 hkn1 hln1n
            rw [e2] at hdn2 hkn2 hln2n
            simp only [vdepth] at hdn1 hdn2
            simp only [keysUnique, Bool.and_eq_true] at hkn1 hkn2
            simp only [listsNoNull] at hln1n hln2n
            have hsymEl : ∀ p ∈ m1, ∀ q ∈ m2,
                compareValues p.2 q.2 = compareValues q.2 p.2 := by
              intro p hp q hq
              have hdp := vdepthPairs_mem hp
              have hdq := vdepthPairs_mem hq
              exact IHsym p.2 q.2 (by omega) (by omega)
                (kuPairs_mem hkn1.2 hp) (lnnPairs_mem hln1n hp)
                (kuPairs_mem hkn2.2 hq) (lnnPairs_mem hln2n hq)
            show compareMaps m1 m2 = compareMaps m2 m1
            refine bool_eq_of_iff ⟨?_, ?_⟩
            · exact compareMaps_symm_oneway hkn1.1 hkn2.1 hsymEl
            · exact compareMaps_symm_oneway hkn2.1 hkn1.1
                fun q hq p hp => (hsymEl p hp q hq).symm
  · -- transitivity
    intro v1 v2 v3 h1 h2 h3 hku1 hln1 hku2 hln2 hku3 hln3 h12 h23
    by_cases hn1 : v1 = Value.null
    · subst hn1
      by_cases hn2 : v2 = Value.null
      · subst hn2; exact h23
      · rw [compareValues_null_left hn2] at h12; cases h12
    · by_cases hn2 : v2 = Value.null
      · subst hn2
        rw [compareValues_null_right hn1] at h12; cases h12
      · by_cases hn3 : v3 = Value.null
        · subst hn3
          rw [compareValues_null_right hn2] at h23; cases h23
        · rw [compareValues_nonnull hn1 hn2] at h12
          rw [compareValues_nonnull hn2 hn3] at h23
          rw [compareValues_nonnull hn1 hn3]
          have hdn1 : vdepth (normalizeValue v1) ≤ n :=
            le_trans (vdepth_normalize_le v1) h1
          have hdn2 : vdepth (normalizeValue v2) ≤ n :=
            le_trans (vdepth_normalize_le v2) h2
          have hdn3 : vdepth (normalizeValue v3) ≤ n :=
            le_trans (vdepth_normalize_le v3) h3
          have hkn1 : keysUnique (normalizeValue v1) = true := by
            rw [keysUnique_normalize]; exact hku1
          have hkn2 : keysUnique (normalizeValue v2) = true := by
            rw [keysUnique_normalize]; exact hku2
          have hkn3 : keysUnique (normalizeValue v3) = true := by
            rw [keysUnique_normalize]; exact hku3
          have hln1n : listsNoNull (normalizeValue v1) = true := by
            rw [listsNoNull_normalize]; exact hln1
          have hln2n : listsNoNull (normalizeValue v2) = true := by
            rw [listsNoNull_normalize]; exact hln2
          have hln3n : listsNoNull (normalizeValue v3) = true := by
            rw [listsNoNull_normalize]; exact hln3
          rcases hm1 : asMap (normalizeValue v1) with _ | m1
          · rcases hs1 : asSlice (normalizeValue v1) with _ | s1
            · -- n1 scalar: v1 and v2 normalize identically
              rw [compareCore_fallback (Or.inl hm1) (Or.inl hs1)] at h12
              have he := (deepEqual_iff_eq _ _).mp h12
              rw [he]
              exact h23
            · -- n1 list
              rcases hs2 : asSlice (normalizeValue v2) with _ | s2
              · rw [compareCore_fallback (Or.inl hm1) (Or.inr hs2)] at h12
                have he := (deepEqual_iff_eq _ _).mp h12
                rw [he] at hs1
                rw [hs2] at hs1
                cases hs1
              · have hm2 : asMap (normalizeValue v2) = none := by
                  rw [asSlice_shape hs2]; rfl
                rw [compareCore_slice hs1 hs2] at h12
                rcases hs3 : asSlice (normalizeValue v3) with _ | s3
                · rw [compareCore_fallback (Or.inl hm2) (Or.inr hs3)] at h23
                  have he := (deepEqual_iff_eq _ _).mp h23
                  rw [he] at hs2
                  rw [hs3] at hs2
                  cases hs2
                · rw [compareCore_slice hs2 hs3] at h23
                  rw [compareCore_slice hs1 hs3]
                  -- slice transitivity via the matching characterization
                  have e1 := asSlice_shape hs1
                  have e2 := asSlice_shape hs2
                  have e3 := asSlice_shape hs3
                  rw [e1] at hdn1 hkn1 hln1n
                  rw [e2] at hdn2 hkn2 hln2n
                  rw [e3] at hdn3 hkn3 hln3n
                  simp only [vdepth] at hdn1 hdn2 hdn3
                  simp only [keysUnique] at hkn1 hkn2 hkn3
                  simp only [listsNoNull] at hln1n hln2n hln3n
                  have hels1 : ∀ x ∈ s1, vdepth x < n ∧ keysUnique x = true ∧
                      listsNoNull x = true ∧ x ≠ Value.null := by
                    intro x hx
                    have hd := vdepthList_mem hx
                    have hl := lnnList_mem hln1n hx
                    exact ⟨by omega, kuList_mem hkn1 hx, hl.2, hl.1⟩
                  have hels2 : ∀ x ∈ s2, vdepth x < n ∧ keysUnique x = true ∧
                      listsNoNull x = true ∧ x ≠ Value.null := by
                    intro x hx
                    have hd := vdepthList_mem hx
                    have hl := lnnList_mem hln2n hx
                    exact ⟨by omega, kuList_mem hkn2 hx, hl.2, hl.1⟩
                  have hels3 : ∀ x ∈ s3, vdepth x < n ∧ keysUnique x = true ∧
                      listsNoNull x = true ∧ x ≠ Value.null := by
                    intro x hx
                    have hd := vdepthList_mem hx
                    have hl := lnnList_mem hln3n hx
                    exact ⟨by omega, kuList_mem hkn3 hx, hl.2, hl.1⟩
                  have hexchGen : ∀ sa sb : List Value,
                      (∀ x ∈ sa, vdepth x < n ∧ keysUnique x = true ∧
                        listsNoNull x = true ∧ x ≠ Value.null) →
                      (∀ x ∈ sb, vdepth x < n ∧ keysUnique x = true ∧
                        listsNoNull x = true ∧ x ≠ Value.null) →
                      ∀ u ∈ sa, ∀ v₁ ∈ sa, ∀ w ∈ sb, ∀ w₁ ∈ sb,
                      compareValues u w = true → compareValues v₁ w = true →
                      compareValues v₁ w₁ = true → compareValues u w₁ = true := by
                    intro sa sb hea heb u hu v₁ hv w hw w₁ hw₁ hr1 hr2 hr3
                    obtain ⟨du, ku, lu, _⟩ := hea u hu
                    obtain ⟨dv, kv, lv, _⟩ := hea v₁ hv
                    obtain ⟨dw, kw, lw, _⟩ := heb w hw
                    obtain ⟨dw₁, kw₁, lw₁, _⟩ := heb w₁ hw₁
                    have hwv : compareValues w v₁ = true := by
                      rw [← IHsym v₁ w dv dw kv lv kw lw]; exact hr2
                    have huv : compareValues u v₁ = true :=
                      IHtrans u w v₁ du dw dv ku lu kw lw kv lv hr1 hwv
                    exact IHtrans u v₁ w₁ du dv dw₁ ku lu kv lv kw₁ lw₁ huv hr3
                  have hnn1 : ∀ x ∈ s1, x ≠ Value.null :=
                    fun x hx => (hels1 x hx).2.2.2
                  have hnn2 : ∀ x ∈ s2, x ≠ Value.null :=
                    fun x hx => (hels2 x hx).2.2.2
                  have hiff12 := compareSlices_true_iff_hyp hnn1
                    (hexchGen s1 s2 hels1 hels2)
                  have hiff23 := compareSlices_true_iff_hyp hnn2
                    (hexchGen s2 s3 hels2 hels3)
                  have hiff13 := compareSlices_true_iff_hyp hnn1
                    (hexchGen s1 s3 hels1 hels3)
                  have h12c : compareSlices s1 s2 = true := h12
                  have h23c : compareSlices s2 s3 = true := h23
                  obtain ⟨hlen12, l12, hF12, hsub12⟩ := hiff12.mp h12c
                  obtain ⟨hlen23, l23, hF23, hsub23⟩ := hiff23.mp h23c
                  have hperm12 : l12.Perm s2 := by
                    have := hF12.length_eq
                    exact hsub12.perm_of_length_le (by omega)
                  have htrEl : ∀ a ∈ s1, ∀ b ∈ s2, ∀ c ∈ s3,
                      compareValues a b = true → compareValues b c = true →
                      compareValues a c = true := by
                    intro a ha b hb c hc hab hbc
                    obtain ⟨da, ka, la, _⟩ := hels1 a ha
                    obtain ⟨db, kb, lb, _⟩ := hels2 b hb
                    obtain ⟨dc, kc, lc, _⟩ := hels3 c hc
                    exact IHtrans a b c da db dc ka la kb lb kc lc hab hbc
                  obtain ⟨l, hF, hsub⟩ :=
                    matching_trans_hyp hperm12 hF12 hF23 hsub23 htrEl
                  exact hiff13.mpr ⟨hlen12.trans hlen23, l, hF, hsub⟩
          · -- n1 map
            rcases hm2 : asMap (normalizeValue v2) with _ | m2
            · have hs1 : asSlice (normalizeValue v1) = none := by
                rw [asMap_shape hm1]; rfl
              rw [compareCore_fallback (Or.inr hm2) (Or.inl hs1)] at h12
              have he := (deepEqual_iff_eq _ _).mp h12
              rw [he] at hm1
              rw [hm2] at hm1
              cases hm1
            · rcases hm3 : asMap (normalizeValue v3) with _ | m3
              · have hs2 : asSlice (normalizeValue v2) = none := by
                  rw [asMap_shape hm2]; rfl
                rw [compareCore_fallback (Or.inr hm3) (Or.inl hs2)] at h23
                have he := (deepEqual_iff_eq _ _).mp h23
                rw [he] at hm2
                rw [hm3] at hm2
                cases hm2
              · rw [compareCore_map hm1 hm2] at h12
                rw [compareCore_map hm2 hm3] at h23
                rw [compareCore_map hm1 hm3]
                have e1 := asMap_shape hm1
                have e2 := asMap_shape hm2
                have e3 := asMap_shape hm3
                rw [e1] at hdn1 hkn1 hln1n
                rw [e2] at hdn2 hkn2 hln2n
                rw [e3] at hdn3 hkn3 hln3n
                simp only [vdepth] at hdn1 hdn2 hdn3
                simp only [keysUnique, Bool.and_eq_true] at hkn1 hkn2 hkn3
                simp only [listsNoNull] at hln1n hln2n hln3n
                have htrEl : ∀ p ∈ m1, ∀ q ∈ m2, ∀ r ∈ m3,
                    compareValues p.2 q.2 = true → compareValues q.2 r.2 = true →
                    compareValues p.2 r.2 = true := by
                  intro p hp q hq r hr hpq hqr
                  have hdp := vdepthPairs_mem hp
                  have hdq := vdepthPairs_mem hq
                  have hdr := vdepthPairs_mem hr
                  exact IHtrans p.2 q.2 r.2 (by omega) (by omega) (by omega)
                    (kuPairs_mem hkn1.2 hp) (lnnPairs_mem hln1n hp)
                    (kuPairs_mem hkn2.2 hq) (lnnPairs_mem hln2n hq)
                    (kuPairs_mem hkn3.2 hr) (lnnPairs_mem hln3n hr) hpq hqr
                exact compareMaps_trans_hyp htrEl h12 h23

theorem driftLookup_mapAssign_self :
    ∀ (m : List (String × DriftDetail)) (k : String) (d : DriftDetail),
    driftLookup (mapAssign m k d) k = some d := by
  intro m
  induction m with
  | nil => intro k d; simp [mapAssign, driftLookup]
  | cons p ps ih =>
    intro k d
    by_cases hk : p.1 = k
    · simp [mapAssign, hk, driftLookup]
    · simp only [mapAssign, if_neg hk, driftLookup]
      exact ih k d


theorem driftLookup_mapAssign_ne :
    ∀ (m : List (String × DriftDetail)) (k attr : String) (d : DriftDetail),
    attr ≠ k → driftLookup (mapAssign m k d) attr = driftLookup m attr := by
  intro m
  induction m with
  | nil =>
    intro k attr d h
    simp only [mapAssign, driftLookup]
    rw [if_neg (fun he => h he.symm)]
  | cons p ps ih =>
    intro k attr d h
    by_cases hk : p.1 = k
    · simp only [mapAssign, if_pos hk, driftLookup]
      rw [if_neg (fun he => h he.symm), if_neg (fun he => h (he.symm.trans hk))]
    · simp only [mapAssign, if_neg hk, driftLookup]
      by_cases hp : p.1 = attr
      · rw [if_pos hp, if_pos hp]
      · rw [if_neg hp, if_neg hp]
        exact ih k attr d h

theorem detectStep_lookup_self (awsConfig tfConfig : List (String × Value))
    (acc : List (String × DriftDetail)) (a : String)
    (hinv : driftLookup acc a = none ∨
      driftLookup acc a = expectedDrift awsConfig tfConfig a) :
    driftLookup (detectStep awsConfig tfConfig acc a) a =
      expectedDrift awsConfig tfConfig a := by
  rcases h1 : getNestedValue awsConfig a with _ | awsValue <;>
    rcases h2 : getNestedValue tfConfig a with _ | tfValue
  · have hexp : expectedDrift awsConfig tfConfig a = none := by
      simp [expectedDrift, h1, h2]
    have hstep : detectStep awsConfig tfConfig acc a = acc := by
      simp [detectStep, h1, h2]
    rw [hstep, hexp]
    rcases hinv with h | h
    · exact h
    · rw [hexp] at h; exact h
  · have hexp : expectedDrift awsConfig tfConfig a =
        some ⟨a, false, true, Value.null, tfValue⟩ := by
      simp [expectedDrift, h1, h2]
    have hstep : detectStep awsConfig tfConfig acc a =
        mapAssign acc a ⟨a, false, true, Value.null, tfValue⟩ := by
      simp [detectStep, h1, h2]
    rw [hstep, hexp]
    exact driftLookup_mapAssign_self acc a _
  · have hexp : expectedDrift awsConfig tfConfig a =
        some ⟨a, true, false, awsValue, Value.null⟩ := by
      simp [expectedDrift, h1, h2]
    have hstep : detectStep awsConfig tfConfig acc a =
        mapAssign acc a ⟨a, true, false, awsValue, Value.null⟩ := by
      simp [detectStep, h1, h2]
    rw [hstep, hexp]
    exact driftLookup_mapAssign_self acc a _
  · by_cases hcv : compareValues awsValue tfValue = true
    · have hexp : expectedDrift awsConfig tfConfig a = none := by
        simp [expectedDrift, h1, h2, hcv]
      have hstep : detectStep awsConfig tfConfig acc a = acc := by
        simp [detectStep, h1, h2, hcv]
      rw [hstep, hexp]
      rcases hinv with h | h
      · exact h
      · rw [hexp] at h; exact h
    · have hcvf : compareValues awsValue tfValue = false := by
        simpa using hcv
      have hexp : expectedDrift awsConfig tfConfig a =
          some ⟨a, true, true, awsValue, tfValue⟩ := by
        simp [expectedDrift, h1, h2, hcvf]
      have hstep : detectStep awsConfig tfConfig acc a =
          mapAssign acc a ⟨a, true, true, awsValue, tfValue⟩ := by
        simp [detectStep, h1, h2, hcvf]
      rw [hstep, hexp]
      exact driftLookup_mapAssign_self acc a _

theorem detectStep_lookup_ne (awsConfig tfConfig : List (String × Value))
    (acc : List (String × DriftDetail)) (a attr : String) (h : attr ≠ a) :
    driftLookup (detectStep awsConfig tfConfig acc a) attr = driftLookup acc attr := by
  rcases h1 : getNestedValue awsConfig a with _ | awsValue <;>
    rcases h2 : getNestedValue tfConfig a with _ | tfValue
  · have hstep : detectStep awsConfig tfConfig acc a = acc := by
      simp [detectStep, h1, h2]
    rw [hstep]
  · have hstep : detectStep awsConfig tfConfig acc a =
        mapAssign acc a ⟨a, false, true, Value.null, tfValue⟩ := by
      simp [detectStep, h1, h2]
    rw [hstep]
    exact driftLookup_mapAssign_ne acc a attr _ h
  · have hstep : detectStep awsConfig tfConfig acc a =
        mapAssign acc a ⟨a, true, false, awsValue, Value.null⟩ := by
      simp [detectStep, h1, h2]
    rw [hstep]
    exact driftLookup_mapAssign_ne acc a attr _ h
  · by_cases hcv : compareValues awsValue tfValue = true
    · have hstep : detectStep awsConfig tfConfig acc a = acc := by
        simp [detectStep, h1, h2, hcv]
      rw [hstep]
    · have hcvf : compareValues awsValue tfValue = false := by
        simpa using hcv
      have hstep : detectStep awsConfig tfConfig acc a =
          mapAssign acc a ⟨a, true, true, awsValue, tfValue⟩ := by
        simp [detectStep, h1, h2, hcvf]
      rw [hstep]
      exact driftLookup_mapAssign_ne acc a attr _ h

theorem detectStep_inv (awsConfig tfConfig : List (String × Value))
    (acc : List (String × DriftDetail)) (a : String)
    (hinv : ∀ k, driftLookup acc k = none ∨
      driftLookup acc k = expectedDrift awsConfig tfConfig k) :
    ∀ k, driftLookup (detectStep awsConfig tfConfig acc a) k = none ∨
      driftLookup (detectStep awsConfig tfConfig acc a) k =
        expectedDrift awsConfig tfConfig k := by
  intro k
  by_cases hk : k = a
  · subst hk
    right
    exact detectStep_lookup_self awsConfig tfConfig acc k (hinv k)
  · rw [detectStep_lookup_ne awsConfig tfConfig acc a k hk]
    exact hinv k

theorem detect_fold_lookup (awsConfig tfConfig : List (String × Value)) :
    ∀ (attrs : List String) (acc : List (String × DriftDetail)),
    (∀ k, driftLookup acc k = none ∨
      driftLookup acc k = expectedDrift awsConfig tfConfig k) →
    ∀ attr,
    driftLookup (attrs.foldl (detectStep awsConfig tfConfig) acc) attr =
      if attr ∈ attrs then expectedDrift awsConfig tfConfig attr
      else driftLookup acc attr := by
  intro attrs
  induction attrs with
  | nil => intro acc _ attr; simp
  | cons a rest ih =>
    intro acc hinv attr
    rw [List.foldl_cons]
    rw [ih (detectStep awsConfig tfConfig acc a)
      (detectStep_inv awsConfig tfConfig acc a hinv) attr]
    by_cases hmem : attr ∈ rest
    · rw [if_pos hmem, if_pos (List.mem_cons_of_mem a hmem)]
    · rw [if_neg hmem]
      by_cases heq : attr = a
      · subst heq
        rw [if_pos (List.mem_cons_self attr rest)]
        exact detectStep_lookup_self awsConfig tfConfig acc attr (hinv attr)
      · rw [if_neg (by
          intro hc
          rcases List.mem_cons.mp hc with hc | hc
          · exact heq hc
          · exact hmem hc)]
        exact detectStep_lookup_ne awsConfig tfConfig acc a attr heq

theorem splitDotAux_ne_nil : ∀ (cs acc : List Char), splitDotAux cs acc ≠ [] := by
  intro cs
  induction cs with
  | nil => intro acc h; simp [splitDotAux] at h
  | cons c cs ih =>
    intro acc h
    by_cases hc : c = '.'
    · simp [splitDotAux, hc] at h
    · simp only [splitDotAux, if_neg hc] at h
      exact ih (c :: acc) h

theorem splitDot_ne_nil (s : String) : splitDot s ≠ [] :=
  splitDotAux_ne_nil s.toList []

theorem walkParts_characterization : ∀ (parts : List String), parts ≠ [] →
    ∀ (m : List (String × Value)),
    (∀ v, walkParts m parts = some v ↔ Resolves m parts v) ∧
    (walkParts m parts = none ↔ ResolutionFails m parts) := by
  intro parts
  induction parts with
  | nil => intro h; cases h rfl
  | cons seg rest ih =>
    intro _ m
    cases rest with
    | nil =>
      constructor
      · intro v
        constructor
        · intro h
          exact Resolves.last m seg v h
        · intro hres
          cases hres with
          | last _ _ _ h => exact h
          | step _ _ _ _ _ _ hne => exact absurd rfl hne
      · constructor
        · intro h
          exact ResolutionFails.lastMissing m seg h
        · intro hres
          cases hres with
          | lastMissing _ _ h => exact h
          | segMissing _ _ _ hne => exact absurd rfl hne
          | segNotMap _ _ _ _ hne => exact absurd rfl hne
          | stepInto _ _ _ _ _ hne => exact absurd rfl hne
    | cons seg₂ rest₂ =>
      have hne₂ : (seg₂ :: rest₂ : List String) ≠ [] := by simp
      have hwalk : walkParts m (seg :: seg₂ :: rest₂) =
          (match mapLookup m seg with
           | none => none
           | some w =>
             match asNestedMap w with
             | none => none
             | some next => walkParts next (seg₂ :: rest₂)) := rfl
      have hred_none : ∀ (hl : mapLookup m seg = none),
          walkParts m (seg :: seg₂ :: rest₂) = none := by
        intro hl
        rw [hwalk, hl]
      have hred_notmap : ∀ w (hl : mapLookup m seg = some w)
          (hn : asNestedMap w = none),
          walkParts m (seg :: seg₂ :: rest₂) = none := by
        intro w hl hn
        rw [hwalk, hl]
        simp only []
        rw [hn]
      have hred_step : ∀ w next (hl : mapLookup m seg = some w)
          (hn : asNestedMap w = some next),
          walkParts m (seg :: seg₂ :: rest₂) = walkParts next (seg₂ :: rest₂) := by
        intro w next hl hn
        rw [hwalk, hl]
        simp only []
        rw [hn]
      constructor
      · intro v
        constructor
        · intro h
          cases hl : mapLookup m seg with
          | none =>
            rw [hred_none hl] at h
            cases h
          | some w =>
            cases hn : asNestedMap w with
            | none =>
              rw [hred_notmap w hl hn] at h
              cases h
            | some next =>
              rw [hred_step w next hl hn] at h
              exact Resolves.step m seg w next _ v hne₂ hl hn
                (((ih hne₂ next).1 v).mp h)
        · intro hres
          cases hres with
          | step _ _ w next _ _ hne hl hn hres₂ =>
            rw [hred_step w next hl hn]
            exact ((ih hne₂ next).1 v).mpr hres₂
      · constructor
        · intro h
          cases hl : mapLookup m seg with
          | none => exact ResolutionFails.segMissing m seg _ hne₂ hl
          | some w =>
            cases hn : asNestedMap w with
            | none => exact ResolutionFails.segNotMap m seg w _ hne₂ hl hn
            | some next =>
              rw [hred_step w next hl hn] at h
              exact ResolutionFails.stepInto m seg w next _ hne₂ hl hn
                ((ih hne₂ next).2.mp h)
        · intro hres
          cases hres with
          | segMissing _ _ _ _ hl => exact hred_none hl
          | segNotMap _ _ w _ _ hl hn => exact hred_notmap w hl hn
          | stepInto _ _ w next _ _ hl hn hres₂ =>
            rw [hred_step w next hl hn]
            exact (ih hne₂ next).2.mpr hres₂

/-- The claim's characterization of getNestedValue for nonempty paths:
some v exactly when the dotted segments resolve to v, none exactly when
an intermediate segment is missing or non-map or the final segment is
absent. -/
theorem getNestedValue_characterization (data : List (String × Value))
    (path : String) (h : path ≠ "") :
    (∀ v, getNestedValue data path = some v ↔ Resolves data (splitDot path) v) ∧
    (getNestedValue data path = none ↔ ResolutionFails data (splitDot path)) := by
  rw [getNestedValue, if_neg h]
  exact walkParts_characterization _ (splitDot_ne_nil path) data

theorem compareValues_symm_all (v1 v2 : Value)
    (hku1 : keysUnique v1 = true) (hln1 : listsNoNull v1 = true)
    (hku2 : keysUnique v2 = true) (hln2 : listsNoNull v2 = true) :
    compareValues v1 v2 = compareValues v2 v1 :=
  (compareValues_symm_trans_main (max (vdepth v1) (vdepth v2))).1 v1 v2
    (le_max_left _ _) (le_max_right _ _) hku1 hln1 hku2 hln2

theorem compareValues_trans_all (v1 v2 v3 : Value)
    (hku1 : keysUnique v1 = true) (hln1 : listsNoNull v1 = true)
    (hku2 : keysUnique v2 = true) (hln2 : listsNoNull v2 = true)
    (hku3 : keysUnique v3 = true) (hln3 : listsNoNull v3 = true)
    (h12 : compareValues v1 v2 = true) (h23 : compareValues v2 v3 = true) :
    compareValues v1 v3 = true :=
  (compareValues_symm_trans_main (max (max (vdepth v1) (vdepth v2)) (vdepth v3))).2
    v1 v2 v3 (le_max_of_le_left (le_max_left _ _))
    (le_max_of_le_left (le_max_right _ _)) (le_max_right _ _)
    hku1 hln1 hku2 hln2 hku3 hln3 h12 h23

/-- C1 (amended): for lists of wellformed values in which nil never occurs
as a list element, compareSlices returns true exactly when the lists have
the same length and every element of the first list can be matched to a
distinct element of the second for which compareValues holds (a pointwise
matched sub-permutation).  The claim as frozen quantifies over all lists;
the nil tombstone written into the working copy makes both directions of
the iff fail when nil list elements are present (see the counterexample). -/
theorem compareSlices_multiset_iff (a b : List Value)
    (hka : kuList a = true) (hla : lnnList a = true)
    (hkb : kuList b = true) (hlb : lnnList b = true) :
    compareSlices a b = true ↔
      (a.length = b.length ∧
       ∃ b₁, List.Forall₂ (fun x y => compareValues x y = true) a b₁ ∧
         b₁.Subperm b) := by
  have hElemsA : ∀ x ∈ a, keysUnique x = true ∧ listsNoNull x = true ∧
      x ≠ Value.null := fun x hx =>
    ⟨kuList_mem hka hx, (lnnList_mem hla hx).2, (lnnList_mem hla hx).1⟩
  have hElemsB : ∀ x ∈ b, keysUnique x = true ∧ listsNoNull x = true ∧
      x ≠ Value.null := fun x hx =>
    ⟨kuList_mem hkb hx, (lnnList_mem hlb hx).2, (lnnList_mem hlb hx).1⟩
  have hnn : ∀ x ∈ a, x ≠ Value.null := fun x hx => (hElemsA x hx).2.2
  have hexch : ∀ u ∈ a, ∀ v₁ ∈ a, ∀ w ∈ b, ∀ w₁ ∈ b,
      compareValues u w = true → compareValues v₁ w = true →
      compareValues v₁ w₁ = true → compareValues u w₁ = true := by
    intro u hu v₁ hv w hw w₁ hw₁ h1 h2 h3
    obtain ⟨ku, lu, _⟩ := hElemsA u hu
    obtain ⟨kv, lv, _⟩ := hElemsA v₁ hv
    obtain ⟨kw, lw, _⟩ := hElemsB w hw
    obtain ⟨kw₁, lw₁, _⟩ := hElemsB w₁ hw₁
    have hwv : compareValues w v₁ = true := by
      rw [← compareValues_symm_all v₁ w kv lv kw lw]
      exact h2
    have huv : compareValues u v₁ = true :=
      compareValues_trans_all u w v₁ ku lu kw lw kv lv h1 hwv
    exact compareValues_trans_all u v₁ w₁ ku lu kv lv kw₁ lw₁ huv h3
  exact compareSlices_true_iff_hyp hnn hexch

/-- Witness for C1 at concrete inputs, also checking the differing
multiplicity example of the claim: for nil-free lists the characterization
applies, and on [a,a] versus [a,b] compareSlices is false. -/
theorem compareSlices_multiset_iff_witness :
    (compareSlices [Value.vStr "a", Value.vStr "a"]
        [Value.vStr "a", Value.vStr "b"] = true ↔
      (([Value.vStr "a", Value.vStr "a"] : List Value).length =
          ([Value.vStr "a", Value.vStr "b"] : List Value).length ∧
       ∃ b₁, List.Forall₂ (fun x y => compareValues x y = true)
           [Value.vStr "a", Value.vStr "a"] b₁ ∧
         b₁.Subperm [Value.vStr "a", Value.vStr "b"])) ∧
    compareSlices [Value.vStr "a", Value.vStr "a"]
      [Value.vStr "a", Value.vStr "b"] = false :=
  ⟨compareSlices_multiset_iff _ _ (by decide) (by decide) (by decide) (by decide),
   by decide⟩

/-- C1 counterexample: with a = [String "a", nil] and b = [String "a",
String "b"], compareSlices reports true (the nil element of a consumes the
tombstone left after the first match), the lengths agree, yet no pointwise
matching of a into distinct elements of b exists, because nil compares
false against every element of b. -/
theorem compareSlices_matching_counterexample :
    compareSlices [Value.vStr "a", Value.null]
      [Value.vStr "a", Value.vStr "b"] = true ∧
    ([Value.vStr "a", Value.null] : List Value).length =
      ([Value.vStr "a", Value.vStr "b"] : List Value).length ∧
    ¬ ∃ b₁, List.Forall₂ (fun x y => compareValues x y = true)
        [Value.vStr "a", Value.null] b₁ ∧
      b₁.Subperm [Value.vStr "a", Value.vStr "b"] := by
  refine ⟨by decide, by decide, ?_⟩
  rintro ⟨b₁, hF, hsub⟩
  cases hF with
  | cons h1 hF₀ =>
    cases hF₀ with
    | cons h2 hF₁ =>
      rename_i y2 ys₂
      have hy : y2 = Value.null := by
        by_contra hne
        rw [compareValues_null_left hne] at h2
        cases h2
      subst hy
      have hmem : Value.null ∈ [Value.vStr "a", Value.vStr "b"] :=
        hsub.subset (by simp)
      simp at hmem

/-- C2 (amended): compareValues is symmetric on wellformed values in which
nil never occurs as a direct list element.  The claim as frozen asserts
symmetry for all values; the nil tombstone of the greedy list matching
breaks it when a list holds nil (see the counterexample). -/
theorem compareValues_symmetric (v1 v2 : Value)
    (hku1 : keysUnique v1 = true) (hln1 : listsNoNull v1 = true)
    (hku2 : keysUnique v2 = true) (hln2 : listsNoNull v2 = true) :
    compareValues v1 v2 = compareValues v2 v1 :=
  compareValues_symm_all v1 v2 hku1 hln1 hku2 hln2

/-- Witness for C2 at concrete inputs, including maps and lists with the
numeric widening involved. -/
theorem compareValues_symmetric_witness :
    compareValues
        (Value.vMap [("n", Value.vInt 8), ("xs", Value.vList [Value.vStr "x"])])
        (Value.vMap [("n", Value.vFloat 8), ("xs", Value.vList [Value.vStr "x"])]) =
      compareValues
        (Value.vMap [("n", Value.vFloat 8), ("xs", Value.vList [Value.vStr "x"])])
        (Value.vMap [("n", Value.vInt 8), ("xs", Value.vList [Value.vStr "x"])]) :=
  compareValues_symmetric _ _ (by decide) (by decide) (by decide) (by decide)

/-- C2 counterexample: compareValues([String "a", nil], [String "a",
String "b"]) is true while the swapped call is false, so compareValues is
not symmetric on all values. -/
theorem compareValues_symmetric_counterexample :
    compareValues (Value.vList [Value.vStr "a", Value.null])
        (Value.vList [Value.vStr "a", Value.vStr "b"]) = true ∧
    compareValues (Value.vList [Value.vStr "a", Value.vStr "b"])
        (Value.vList [Value.vStr "a", Value.null]) = false := by
  constructor <;> decide

/-- C3: for every checklist attribute, the drift report of DetectDrift
holds a record exactly as the four presence cases prescribe: nothing when
the attribute is absent from both trees or present in both with equal
values, a one-sided record carrying the present value when only one tree
has it, and a two-sided record carrying both values when both have it and
they differ; attributes outside the checklist are never reported. -/
theorem DetectDrift_per_attribute (awsConfig tfConfig : List (String × Value))
    (attributesToCheck : List String) (attr : String) :
    driftLookup (DetectDrift awsConfig tfConfig attributesToCheck).1 attr =
      if attr ∈ attributesToCheck then expectedDrift awsConfig tfConfig attr
      else none := by
  unfold DetectDrift
  rw [detect_fold_lookup awsConfig tfConfig attributesToCheck []
    (fun k => Or.inl rfl) attr]
  by_cases h : attr ∈ attributesToCheck
  · rw [if_pos h, if_pos h]
  · rw [if_neg h, if_neg h]
    rfl

/-- C4 (amended): for every tree and every nonempty dotted path,
getNestedValue returns some v exactly when the path segments resolve to v
(descending through map layers on every segment before the last and
finding the final segment present), and returns none exactly when an
intermediate segment is missing or not a map while segments remain, or
the final segment is absent.  The claim as frozen also covers the empty
path, where the code short-circuits to absent even when an empty-string
key is present (see the counterexample and C10). -/
theorem getNestedValue_resolution (data : List (String × Value))
    (path : String) (h : path ≠ "") :
    (∀ v, getNestedValue data path = some v ↔ Resolves data (splitDot path) v) ∧
    (getNestedValue data path = none ↔ ResolutionFails data (splitDot path)) :=
  getNestedValue_characterization data path h

/-- Witness for C4 on the example of the claim: resolving tags.Name in
the tree with tags.Name = "x". -/
theorem getNestedValue_resolution_witness :
    getNestedValue [("tags", Value.vMap [("Name", Value.vStr "x")])]
      "tags.Name" = some (Value.vStr "x") ∧
    Resolves [("tags", Value.vMap [("Name", Value.vStr "x")])]
      (splitDot "tags.Name") (Value.vStr "x") := by
  have h := getNestedValue_resolution
    [("tags", Value.vMap [("Name", Value.vStr "x")])] "tags.Name" (by decide)
  exact ⟨by decide, (h.1 (Value.vStr "x")).mp (by decide)⟩

/-- C4 counterexample: on the tree whose root map holds the empty-string
key, the empty path resolves per the claim (the final segment of
splitDot "" is the empty string and it is present), yet getNestedValue
reports absence. -/
theorem getNestedValue_empty_path_mismatch :
    Resolves [("", Value.vStr "v")] (splitDot "") (Value.vStr "v") ∧
    getNestedValue [("", Value.vStr "v")] "" = none := by
  constructor
  · have hs : splitDot "" = [""] := by decide
    rw [hs]
    exact Resolves.last _ _ _ (by decide)
  · decide

/-- C5: normalizeValue widens every integer encoding the engine receives,
signed or unsigned of each handled width, to the float64 Number
representation, so the integer 8 and the float 8.0 compare equal. -/
theorem normalizeValue_widens_integers :
    (∀ n : Int, normalizeValue (Value.vInt n) = Value.vFloat n) ∧
    (∀ n : Int, normalizeValue (Value.vInt32 n) = Value.vFloat n) ∧
    (∀ n : Int, normalizeValue (Value.vInt64 n) = Value.vFloat n) ∧
    (∀ n : Nat, normalizeValue (Value.vUint n) = Value.vFloat n) ∧
    (∀ n : Nat, normalizeValue (Value.vUint32 n) = Value.vFloat n) ∧
    (∀ n : Nat, normalizeValue (Value.vUint64 n) = Value.vFloat n) ∧
    compareValues (Value.vInt 8) (Value.vFloat 8) = true ∧
    compareValues (Value.vFloat 8) (Value.vInt 8) = true :=
  ⟨fun _ => rfl, fun _ => rfl, fun _ => rfl, fun _ => rfl, fun _ => rfl,
   fun _ => rfl, by decide, by decide⟩

/-- C6: no cross-type coercion: a numeric value, of any encoding, never
compares equal to any string in either order, and a bool never compares
equal to a string or to a numeric value. -/
theorem compareValues_no_coercion (v : Value) (s : String) (b : Bool)
    (h : isNumeric v = true) :
    compareValues v (Value.vStr s) = false ∧
    compareValues (Value.vStr s) v = false ∧
    compareValues v (Value.vBool b) = false ∧
    compareValues (Value.vBool b) v = false ∧
    compareValues (Value.vBool b) (Value.vStr s) = false ∧
    compareValues (Value.vStr s) (Value.vBool b) = false := by
  cases v <;> first
    | exact ⟨rfl, rfl, rfl, rfl, rfl, rfl⟩
    | exact absurd h (by simp [isNumeric])

/-- Witness for C6 at the example of the claim: the number 8 against its
textual rendering "8". -/
theorem compareValues_no_coercion_witness :
    compareValues (Value.vInt 8) (Value.vStr "8") = false ∧
    compareValues (Value.vStr "8") (Value.vInt 8) = false ∧
    compareValues (Value.vInt 8) (Value.vBool true) = false ∧
    compareValues (Value.vBool true) (Value.vInt 8) = false ∧
    compareValues (Value.vBool true) (Value.vStr "8") = false ∧
    compareValues (Value.vStr "8") (Value.vBool true) = false :=
  compareValues_no_coercion (Value.vInt 8) "8" true (by decide)

/-- C7: DetectDrift is a total function of its inputs and its error
result is nil on the single return path of the source; attribute absence
flows into DriftDetail records, never into the error. -/
theorem DetectDrift_no_error (awsConfig tfConfig : List (String × Value))
    (attributesToCheck : List String) :
    (DetectDrift awsConfig tfConfig attributesToCheck).2 = none := rfl

/-- C8: reflexivity after self-normalization: for every value whose maps
have unique keys (which every Go value does), comparing the normalization
of x with itself yields true. -/
theorem compareValues_refl_after_normalize (x : Value)
    (h : keysUnique x = true) :
    compareValues (normalizeValue x) (normalizeValue x) = true :=
  compareValues_refl (normalizeValue x) (by rw [keysUnique_normalize]; exact h)

/-- Witness for C8 on a value mixing nil, numbers, strings, a nested
string map and a list. -/
theorem compareValues_refl_after_normalize_witness :
    compareValues
      (normalizeValue (Value.vMap
        [("a", Value.vInt 3),
         ("b", Value.vList [Value.vStr "x", Value.null]),
         ("c", Value.vStrMap [("k", "v")])]))
      (normalizeValue (Value.vMap
        [("a", Value.vInt 3),
         ("b", Value.vList [Value.vStr "x", Value.null]),
         ("c", Value.vStrMap [("k", "v")])])) = true :=
  compareValues_refl_after_normalize _ (by decide)

/-- C9: the slice comparison loop, with the mutable slice state made
explicit, leaves the array the caller passed for s2 untouched: all nil
tombstones go into the local copy allocated after the length check, and
the instrumented run computes the same boolean as compareSlices.
DetectDrift and the rest of the engine only ever read their inputs; this
loop is the sole write to slice storage in the comparison engine. -/
theorem compareSlicesSt_frame (s1 s2 : List Value) :
    (compareSlicesSt s1 s2).2.1 = s2 ∧
    (compareSlicesSt s1 s2).1 = compareSlices s1 s2 := by
  have hloop : ∀ (l : List Value) (callerArr s2Copy : List Value),
      (compareSlicesLoop l (callerArr, s2Copy)).2.1 = callerArr ∧
      (compareSlicesLoop l (callerArr, s2Copy)).1 =
        greedyWith compareValues l s2Copy := by
    intro l
    induction l with
    | nil => intro callerArr s2Copy; exact ⟨rfl, rfl⟩
    | cons v vs ih =>
      intro callerArr s2Copy
      simp only [compareSlicesLoop, greedyWith]
      cases hrm : removeFirstMatchWith compareValues v s2Copy with
      | none => exact ⟨rfl, rfl⟩
      | some s2Copy₁ => exact ih callerArr s2Copy₁
  unfold compareSlicesSt compareSlices compareSlicesWith
  by_cases hlen : (s1.length == s2.length) = true
  · rw [if_pos hlen, hlen, Bool.true_and]
    exact ⟨(hloop s1 s2 s2).1, (hloop s1 s2 s2).2⟩
  · have hlenf : (s1.length == s2.length) = false := by simpa using hlen
    rw [if_neg (by rw [hlenf]; exact Bool.false_ne_true), hlenf, Bool.false_and]
    exact ⟨rfl, rfl⟩

/-- C10: the empty attribute path is always reported as absent, whatever
the tree holds, including a root map with an empty-string key. -/
theorem getNestedValue_empty_path (data : List (String × Value)) :
    getNestedValue data "" = none := rfl
